import Mathlib

/-!
Verification of the CottMV cache-cleanup module (`src/media/cleanup.ts`).

The filesystem is shallowly embedded as a tree of directories and files rooted
at the cache directory (`Option FSNode`, with `none` standing for a missing
cache root).  Paths are lists of name segments relative to the cache root, so
the configured `cacheDirectory` is the empty path `[]`.  Timestamps and sizes
are integers (epoch milliseconds / bytes).  The fallibility of `unlink`,
`readdir`, `stat` and `rmdir` is made explicit: a `delOk` oracle decides
whether a given `unlink` call is permitted (modelling permission errors), a
`readable` flag on directories models `readdir` failures, and a `statable`
flag on files models `stat` failures.  The error strings pushed by the source
(`Failed to delete expired file: <path>` / `Failed to delete LRU file:
<path>`) are modelled as `(phase, path)` pairs.
-/

namespace CottMV

set_option maxHeartbeats 1000000
set_option linter.unnecessarySeqFocus false

/-- A filesystem path relative to the cache root, as a list of segments. -/
abbrev FPath := List String

/-- Mirrors `interface CachedFile` of `cleanup.ts`: one scanned file with its
size and access/modification timestamps. -/
structure CachedFile where
  path : FPath
  size : Int
  accessTime : Int
  modTime : Int
deriving Repr, DecidableEq

/-- Mirrors `interface CleanupConfig` (the `cacheDirectory` string is the
implicit root `[]` of the embedded filesystem). -/
structure CleanupConfig where
  maxSizeBytes : Int
  ttlMs : Int
deriving Repr, DecidableEq

/-- Which deletion phase produced an error entry. -/
inductive DelPhase where
  | ttl
  | lru
deriving Repr, DecidableEq

/-- Mirrors `interface CleanupResult`; an error string
`Failed to delete expired/LRU file: p` is modelled as `(phase, p)`. -/
structure CleanupResult where
  filesDeleted : Nat
  bytesFreed : Int
  expiredFiles : List FPath
  lruFiles : List FPath
  errors : List (DelPhase × FPath)
deriving Repr, DecidableEq

/-- The filesystem tree under (and including) the cache root.
`statable = false` on a file models a file whose `stat` fails (it is skipped
by the scan); `readable = false` on a directory models a directory whose
`readdir` fails. -/
inductive FSNode where
  | file (statable : Bool) (size accessTime modTime : Int)
  | dir (readable : Bool) (entries : List (String × FSNode))

mutual

/-- Resolve a path to the node it denotes, if any. -/
def lookupNode : FSNode → FPath → Option FSNode
  | n, [] => some n
  | .file _ _ _ _, _ :: _ => none
  | .dir _ es, name :: rest => lookupEntries es name rest

/-- Resolve `name :: rest` among directory entries (first entry named `name`,
matching real filesystems where names are unique). -/
def lookupEntries : List (String × FSNode) → String → FPath → Option FSNode
  | [], _, _ => none
  | (nm, c) :: es, name, rest =>
    if nm = name then lookupNode c rest else lookupEntries es name rest

end

/-- `readdir` returning the entry names: fails (`none`) if the path does not
denote a readable directory. -/
def readdirNames (fs : Option FSNode) (p : FPath) : Option (List String) :=
  match fs with
  | none => none
  | some n =>
    match lookupNode n p with
    | some (.dir true es) => some (es.map (fun e => e.1))
    | _ => none

mutual

/-- `unlink`: remove the regular file at the given path.  Fails (`none`) when
the path does not denote a file (missing entry, denotes a directory, or is the
root itself). -/
def unlinkNode : FSNode → FPath → Option FSNode
  | .file _ _ _ _, _ => none
  | .dir _ _, [] => none
  | .dir r es, name :: rest =>
    match unlinkEntries es name rest with
    | none => none
    | some es' => some (.dir r es')

/-- `unlink` among directory entries. -/
def unlinkEntries : List (String × FSNode) → String → FPath → Option (List (String × FSNode))
  | [], _, _ => none
  | (nm, c) :: es, name, rest =>
    if nm = name then
      match rest with
      | [] =>
        match c with
        | .file _ _ _ _ => some es
        | .dir _ _ => none
      | _ :: _ =>
        match unlinkNode c rest with
        | none => none
        | some c' => some ((nm, c') :: es)
    else
      match unlinkEntries es name rest with
      | none => none
      | some es' => some ((nm, c) :: es')

end

mutual

/-- `rmdir`: remove the directory at the given path, succeeding only when it
exists, is a directory, is empty, and is not the filesystem root. -/
def rmdirNode : FSNode → FPath → Option FSNode
  | .file _ _ _ _, _ => none
  | .dir _ _, [] => none
  | .dir r es, name :: rest =>
    match rmdirEntries es name rest with
    | none => none
    | some es' => some (.dir r es')

/-- `rmdir` among directory entries. -/
def rmdirEntries : List (String × FSNode) → String → FPath → Option (List (String × FSNode))
  | [], _, _ => none
  | (nm, c) :: es, name, rest =>
    if nm = name then
      match rest with
      | [] =>
        match c with
        | .dir _ [] => some es
        | _ => none
      | _ :: _ =>
        match rmdirNode c rest with
        | none => none
        | some c' => some ((nm, c') :: es)
    else
      match rmdirEntries es name rest with
      | none => none
      | some es' => some ((nm, c) :: es')

end

/-- Entry names of an entry list are pairwise distinct. -/
def nodupKeys : List (String × FSNode) → Bool
  | [] => true
  | (nm, _) :: es => !(es.map (fun e => e.1)).contains nm && nodupKeys es

mutual

/-- Well-formedness of a filesystem tree: entry names are unique within each
directory, as on a real filesystem. -/
def wf : FSNode → Bool
  | .file _ _ _ _ => true
  | .dir _ es => nodupKeys es && wfEntries es

/-- All entries of an entry list are well-formed. -/
def wfEntries : List (String × FSNode) → Bool
  | [] => true
  | (_, c) :: es => wf c && wfEntries es

end

/-- Well-formedness lifted to a possibly-missing cache root. -/
def wfOpt : Option FSNode → Bool
  | none => true
  | some n => wf n

mutual

/-- Mirrors `getAllFiles` of `cleanup.ts`: recursive scan.  `readdir` failure
(missing root, unreadable directory, path denoting a file) yields `[]`, and a
file whose `stat` fails is skipped. -/
def getAllFilesNode : FSNode → FPath → List CachedFile
  | .file _ _ _ _, _ => []
  | .dir false _, _ => []
  | .dir true es, dirPath => getAllFilesEntries es dirPath

/-- The body of `getAllFiles`' loop over `readdir` entries. -/
def getAllFilesEntries : List (String × FSNode) → FPath → List CachedFile
  | [], _ => []
  | (name, .dir r es) :: rest, dirPath =>
    getAllFilesNode (.dir r es) (dirPath ++ [name]) ++ getAllFilesEntries rest dirPath
  | (name, .file st sz at' mt) :: rest, dirPath =>
    (if st then [⟨dirPath ++ [name], sz, at', mt⟩] else []) ++ getAllFilesEntries rest dirPath

end

/-- `getAllFiles(cacheDirectory)`: scan from the cache root. -/
def getAllFiles : Option FSNode → List CachedFile
  | none => []
  | some n => getAllFilesNode n []

/-- Mirrors `safeDelete` of `cleanup.ts`: `unlink` under a try/catch, with the
`delOk` oracle deciding whether the OS permits this particular unlink.
Returns the success flag and the (possibly updated) filesystem. -/
def safeDelete (delOk : FPath → Bool) (fs : Option FSNode) (p : FPath) :
    Bool × Option FSNode :=
  match fs with
  | none => (false, none)
  | some n =>
    if delOk p then
      match unlinkNode n p with
      | some n' => (true, some n')
      | none => (false, some n)
    else (false, some n)

/-- The body of `cleanEmptyDirs`, with an explicit structural fuel so that the
recursion (`dir` is replaced by its parent `dir.dropLast`, which is strictly
shorter) is expressed as a reduction on the fuel; `cleanEmptyDirs` below
supplies fuel `dir.length + 1`, which can never run out. -/
def cleanEmptyDirsFuel : Nat → Option FSNode → FPath → FPath → Option FSNode
  | 0, fs, _, _ => fs
  | fuel + 1, fs, dir, rootDir =>
    if dir = rootDir then fs
    else
      match readdirNames fs dir with
      | none => fs
      | some names =>
        if names.isEmpty then
          match dir with
          | [] => fs
          | hd :: tl =>
            match fs with
            | none => fs
            | some n =>
              match rmdirNode n (hd :: tl) with
              | none => fs
              | some n' => cleanEmptyDirsFuel fuel (some n') (hd :: tl).dropLast rootDir
        else fs

/-- Mirrors `cleanEmptyDirs` of `cleanup.ts`: if `dir` is the root, stop;
otherwise `readdir` it, and if it is empty, `rmdir` it and recurse on its
parent (`join(dir, "..")`, i.e. `dropLast`).  Any failure stops silently. -/
def cleanEmptyDirs (fs : Option FSNode) (dir rootDir : FPath) : Option FSNode :=
  cleanEmptyDirsFuel (dir.length + 1) fs dir rootDir

/-- The running total `remainingFiles.reduce((sum, f) => sum + f.size, 0)`. -/
def sumSizes (l : List CachedFile) : Int :=
  l.foldl (fun s f => s + f.size) 0

/-- One step of the stable sort `sort((a, b) => a.accessTime - b.accessTime)`:
insert into an already sorted list, keeping earlier elements first on ties. -/
def insertByAccess (f : CachedFile) : List CachedFile → List CachedFile
  | [] => [f]
  | g :: gs => if f.accessTime ≤ g.accessTime then f :: g :: gs else g :: insertByAccess f gs

/-- The stable sort by ascending `accessTime` used by the LRU phase. -/
def sortByAccess : List CachedFile → List CachedFile
  | [] => []
  | f :: fs => insertByAccess f (sortByAccess fs)

/-- The all-zero `CleanupResult` `runCleanup` starts from. -/
def emptyResult : CleanupResult :=
  { filesDeleted := 0, bytesFreed := 0, expiredFiles := [], lruFiles := [], errors := [] }

/-- Step 1 of `runCleanup` (the TTL pass): walk the scanned files, deleting
those with `now - modTime > ttlMs` and collecting the survivors in `rem`. -/
def ttlLoop (delOk : FPath → Bool) (now ttlMs : Int) :
    List CachedFile → CleanupResult → List CachedFile → Option FSNode →
    CleanupResult × List CachedFile × Option FSNode
  | [], res, rem, fs => (res, rem, fs)
  | f :: rest, res, rem, fs =>
    if now - f.modTime > ttlMs then
      match safeDelete delOk fs f.path with
      | (true, fs') =>
        ttlLoop delOk now ttlMs rest
          { res with
            filesDeleted := res.filesDeleted + 1
            bytesFreed := res.bytesFreed + f.size
            expiredFiles := res.expiredFiles ++ [f.path] } rem fs'
      | (false, fs') =>
        ttlLoop delOk now ttlMs rest
          { res with errors := res.errors ++ [(DelPhase.ttl, f.path)] } rem fs'
    else
      ttlLoop delOk now ttlMs rest res (rem ++ [f]) fs

/-- Step 2 of `runCleanup` (the LRU pass): walk the candidates in ascending
access-time order, breaking once `currentSize ≤ maxSizeBytes`, deleting
otherwise and decrementing `currentSize` on success. -/
def lruLoop (delOk : FPath → Bool) (maxSizeBytes : Int) :
    List CachedFile → Int → CleanupResult → Option FSNode →
    CleanupResult × Int × Option FSNode
  | [], currentSize, res, fs => (res, currentSize, fs)
  | f :: rest, currentSize, res, fs =>
    if currentSize ≤ maxSizeBytes then (res, currentSize, fs)
    else
      match safeDelete delOk fs f.path with
      | (true, fs') =>
        lruLoop delOk maxSizeBytes rest (currentSize - f.size)
          { res with
            filesDeleted := res.filesDeleted + 1
            bytesFreed := res.bytesFreed + f.size
            lruFiles := res.lruFiles ++ [f.path] } fs'
      | (false, fs') =>
        lruLoop delOk maxSizeBytes rest currentSize
          { res with errors := res.errors ++ [(DelPhase.lru, f.path)] } fs'

/-- Mirrors `runCleanup` of `cleanup.ts`: scan, TTL pass, LRU pass (only when
the survivors' total exceeds the limit), then the empty-directory sweep,
which the source invokes as `cleanEmptyDirs(cacheDirectory, cacheDirectory)`.
Returns the report and the final filesystem. -/
def runCleanup (delOk : FPath → Bool) (config : CleanupConfig) (now : Int)
    (fs : Option FSNode) : CleanupResult × Option FSNode :=
  let files := getAllFiles fs
  if files.length = 0 then (emptyResult, fs)
  else
    let t := ttlLoop delOk now config.ttlMs files emptyResult [] fs
    let remainingFiles := t.2.1
    let currentSize := sumSizes remainingFiles
    let t2 :=
      if currentSize > config.maxSizeBytes then
        lruLoop delOk config.maxSizeBytes (sortByAccess remainingFiles) currentSize t.1 t.2.2
      else (t.1, currentSize, t.2.2)
    (t2.1, cleanEmptyDirs t2.2.2 [] [])

/-- A file reference annotated with its age, as in `getCacheStats`. -/
structure FileAge where
  path : FPath
  age : Int
deriving Repr, DecidableEq

/-- Mirrors the return type of `getCacheStats` (the floating-point
`totalSizeGb` is modelled over the rationals). -/
structure CacheStats where
  totalFiles : Nat
  totalSizeBytes : Int
  totalSizeGb : ℚ
  oldestFile : Option FileAge
  newestFile : Option FileAge
deriving Repr, DecidableEq

/-- `Math.round`: round half away from zero is `Math.round`'s half-up rule
for the nonnegative values that arise here; modelled as `⌊q + 1/2⌋`. -/
def jsRound (q : ℚ) : Int := ⌊q + 1 / 2⌋

/-- Mirrors `getCacheStats` of `cleanup.ts`: scan, then a single fold keeping
the first-seen strict minimum (resp. maximum) of `modTime`, starting from the
first scanned file. -/
def getCacheStats (fs : Option FSNode) (now : Int) : CacheStats :=
  let files := getAllFiles fs
  match files with
  | [] =>
    { totalFiles := 0, totalSizeBytes := 0, totalSizeGb := 0
      oldestFile := none, newestFile := none }
  | f0 :: _ =>
    let totalSizeBytes := sumSizes files
    let oldest := files.foldl (fun o f => if f.modTime < o.modTime then f else o) f0
    let newest := files.foldl (fun o f => if f.modTime > o.modTime then f else o) f0
    { totalFiles := files.length
      totalSizeBytes := totalSizeBytes
      totalSizeGb := (jsRound ((totalSizeBytes : ℚ) / (1024 * 1024 * 1024) * 100) : ℚ) / 100
      oldestFile := some { path := oldest.path, age := now - oldest.modTime }
      newestFile := some { path := newest.path, age := now - newest.modTime } }

/-! ### Basic helper lemmas -/

/-- The Boolean TTL test `now - modTime > ttlMs` of the TTL pass. -/
def expiredB (now ttlMs : Int) (f : CachedFile) : Bool := decide (now - f.modTime > ttlMs)

/-- Prefix a file's path, as the scan does when descending into `q`. -/
def shiftFile (q : FPath) (f : CachedFile) : CachedFile := { f with path := q ++ f.path }

/-- The files the TTL pass successfully deletes: expired and deletable. -/
def ttlDeleted (delOk : FPath → Bool) (now ttl : Int) (files : List CachedFile) :
    List CachedFile :=
  files.filter (fun f => expiredB now ttl f && delOk f.path)

/-- The expired files whose deletion fails. -/
def ttlFailed (delOk : FPath → Bool) (now ttl : Int) (files : List CachedFile) :
    List CachedFile :=
  files.filter (fun f => expiredB now ttl f && !delOk f.path)

/-- The files surviving the TTL pass (Phase-1 survivors). -/
def ttlSurvivors (now ttl : Int) (files : List CachedFile) : List CachedFile :=
  files.filter (fun f => !expiredB now ttl f)

theorem sumSizes_eq (l : List CachedFile) : sumSizes l = (l.map (fun f => f.size)).sum := by
  have key : ∀ (l : List CachedFile) (s : Int),
      l.foldl (fun s f => s + f.size) s = s + (l.map (fun f => f.size)).sum := by
    intro l
    induction l with
    | nil => simp
    | cons f rest ih => intro s; simp [ih]; ring
  simpa [sumSizes] using key l 0

theorem sumSizes_append (l₁ l₂ : List CachedFile) :
    sumSizes (l₁ ++ l₂) = sumSizes l₁ + sumSizes l₂ := by
  simp [sumSizes_eq]

theorem sumSizes_cons (f : CachedFile) (l : List CachedFile) :
    sumSizes (f :: l) = f.size + sumSizes l := by
  simp [sumSizes_eq]

theorem sumSizes_filter_split (l : List CachedFile) (p : CachedFile → Bool) :
    sumSizes l = sumSizes (l.filter p) + sumSizes (l.filter (fun f => !p f)) := by
  induction l with
  | nil => simp [sumSizes]
  | cons f rest ih =>
    by_cases h : p f = true <;>
      simp [List.filter_cons, h, sumSizes_cons, ih] <;> ring

theorem sumSizes_perm {l₁ l₂ : List CachedFile} (h : l₁.Perm l₂) :
    sumSizes l₁ = sumSizes l₂ := by
  rw [sumSizes_eq, sumSizes_eq]
  exact (h.map (fun f => f.size)).sum_eq

theorem sumSizes_nonneg {l : List CachedFile} (h : ∀ f ∈ l, 0 ≤ f.size) :
    0 ≤ sumSizes l := by
  induction l with
  | nil => simp [sumSizes]
  | cons f rest ih =>
    rw [sumSizes_cons]
    have h1 := h f (by simp)
    have h2 := ih (fun g hg => h g (by simp [hg]))
    omega

theorem sumSizes_nonpos_all_zero {l : List CachedFile} (hnn : ∀ f ∈ l, 0 ≤ f.size)
    (hle : sumSizes l ≤ 0) : ∀ f ∈ l, f.size = 0 := by
  induction l with
  | nil => simp
  | cons f rest ih =>
    rw [sumSizes_cons] at hle
    have h1 := hnn f (by simp)
    have h2 := sumSizes_nonneg (l := rest) (fun g hg => hnn g (by simp [hg]))
    intro g hg
    rcases List.mem_cons.mp hg with hg | hg
    · subst hg; omega
    · exact ih (fun g' hg' => hnn g' (by simp [hg'])) (by omega) g hg

/-! ### Sorting lemmas -/

theorem insertByAccess_perm (f : CachedFile) (l : List CachedFile) :
    (insertByAccess f l).Perm (f :: l) := by
  induction l with
  | nil => simp [insertByAccess]
  | cons g gs ih =>
    by_cases h : f.accessTime ≤ g.accessTime
    · simp [insertByAccess, h]
    · simp only [insertByAccess, if_neg h]
      exact ((ih.cons g).trans (List.Perm.swap f g gs))

theorem sortByAccess_perm (l : List CachedFile) : (sortByAccess l).Perm l := by
  induction l with
  | nil => simp [sortByAccess]
  | cons f fs ih =>
    exact (insertByAccess_perm f (sortByAccess fs)).trans (ih.cons f)

theorem insertByAccess_sorted (f : CachedFile) (l : List CachedFile)
    (h : l.Pairwise (fun a b => a.accessTime ≤ b.accessTime)) :
    (insertByAccess f l).Pairwise (fun a b => a.accessTime ≤ b.accessTime) := by
  induction l with
  | nil => simp [insertByAccess]
  | cons g gs ih =>
    rcases List.pairwise_cons.mp h with ⟨hg, hgs⟩
    by_cases hle : f.accessTime ≤ g.accessTime
    · simp only [insertByAccess, if_pos hle]
      refine List.pairwise_cons.mpr ⟨?_, h⟩
      intro x hx
      rcases List.mem_cons.mp hx with hx | hx
      · subst hx; omega
      · exact le_trans hle (hg x hx)
    · simp only [insertByAccess, if_neg hle]
      refine List.pairwise_cons.mpr ⟨?_, ih hgs⟩
      intro x hx
      have hx' := (insertByAccess_perm f gs).mem_iff.mp hx
      rcases List.mem_cons.mp hx' with hx' | hx'
      · subst hx'; omega
      · exact hg x hx'

theorem sortByAccess_sorted (l : List CachedFile) :
    (sortByAccess l).Pairwise (fun a b => a.accessTime ≤ b.accessTime) := by
  induction l with
  | nil => simp [sortByAccess]
  | cons f fs ih => exact insertByAccess_sorted f (sortByAccess fs) ih

/-! ### Nodup and permutation helpers -/

theorem contains_iff_mem {α : Type} [BEq α] [LawfulBEq α] (l : List α) (a : α) :
    l.contains a = true ↔ a ∈ l := by
  simp only [List.elem_eq_mem, decide_eq_true_eq]

theorem nodupKeys_iff (es : List (String × FSNode)) :
    nodupKeys es = true ↔ (es.map (fun e => e.1)).Nodup := by
  induction es with
  | nil => simp [nodupKeys]
  | cons e rest ih =>
    obtain ⟨nm, c⟩ := e
    simp only [nodupKeys, Bool.and_eq_true, Bool.not_eq_true', List.map_cons,
      List.nodup_cons, ih]
    constructor
    · rintro ⟨h1, h2⟩
      refine ⟨?_, h2⟩
      intro hmem
      rw [← contains_iff_mem] at hmem
      simp_all
    · rintro ⟨h1, h2⟩
      refine ⟨?_, h2⟩
      rw [Bool.eq_false_iff]
      intro hc
      exact h1 ((contains_iff_mem _ _).mp hc)

theorem path_inj {l : List CachedFile} (hnd : (l.map (fun f => f.path)).Nodup)
    {f g : CachedFile} (hf : f ∈ l) (hg : g ∈ l) (h : f.path = g.path) : f = g :=
  List.inj_on_of_nodup_map hnd hf hg h

/-- A duplicate-free list of files is recovered (up to permutation) by
filtering any superlist for its paths. -/
theorem filter_paths_perm (D l : List CachedFile)
    (hsub : ∀ f ∈ D, f ∈ l)
    (hDnd : (D.map (fun f => f.path)).Nodup)
    (hlnd : (l.map (fun f => f.path)).Nodup) :
    (l.filter (fun g => decide (g.path ∈ D.map (fun f => f.path)))).Perm D := by
  apply List.perm_of_nodup_nodup_toFinset_eq
  · exact ((hlnd.of_map _).filter _)
  · exact hDnd.of_map _
  · ext x
    simp only [List.mem_toFinset, List.mem_filter, decide_eq_true_eq]
    constructor
    · rintro ⟨hxl, hxp⟩
      rcases List.mem_map.mp hxp with ⟨d, hd, hdp⟩
      have : x = d := path_inj hlnd hxl (hsub d hd) hdp.symm
      rwa [this]
    · intro hxD
      exact ⟨hsub x hxD, List.mem_map_of_mem _ hxD⟩

theorem sumSizes_filter_paths (D l : List CachedFile)
    (hsub : ∀ f ∈ D, f ∈ l)
    (hDnd : (D.map (fun f => f.path)).Nodup)
    (hlnd : (l.map (fun f => f.path)).Nodup) :
    sumSizes (l.filter (fun g => decide (g.path ∈ D.map (fun f => f.path)))) = sumSizes D :=
  sumSizes_perm (filter_paths_perm D l hsub hDnd hlnd)

/-- Splitting a duplicate-free list's total size along deletion of `D`. -/
theorem sumSizes_filter_not_paths (D l : List CachedFile)
    (hsub : ∀ f ∈ D, f ∈ l)
    (hDnd : (D.map (fun f => f.path)).Nodup)
    (hlnd : (l.map (fun f => f.path)).Nodup) :
    sumSizes (l.filter (fun g => !decide (g.path ∈ D.map (fun f => f.path)))) =
      sumSizes l - sumSizes D := by
  have h := sumSizes_filter_split l (fun g => decide (g.path ∈ D.map (fun f => f.path)))
  rw [sumSizes_filter_paths D l hsub hDnd hlnd] at h
  omega

/-! ### Scan lemmas: path shifting, head names, nodup paths -/

theorem shiftFile_nil (f : CachedFile) : shiftFile [] f = f := by
  simp [shiftFile]

theorem shiftFile_comp (q r : FPath) (f : CachedFile) :
    shiftFile q (shiftFile r f) = shiftFile (q ++ r) f := by
  simp [shiftFile]

mutual

theorem getAllFilesNode_shift : ∀ (n : FSNode) (q : FPath),
    getAllFilesNode n q = (getAllFilesNode n []).map (shiftFile q)
  | .file _ _ _ _, _ => by simp [getAllFilesNode]
  | .dir false _, _ => by simp [getAllFilesNode]
  | .dir true es, q => by
    simp only [getAllFilesNode]
    exact getAllFilesEntries_shift es q

theorem getAllFilesEntries_shift : ∀ (es : List (String × FSNode)) (q : FPath),
    getAllFilesEntries es q = (getAllFilesEntries es []).map (shiftFile q)
  | [], _ => by simp [getAllFilesEntries]
  | (name, .dir r es2) :: rest, q => by
    simp only [getAllFilesEntries, List.nil_append]
    rw [getAllFilesNode_shift (.dir r es2) (q ++ [name]),
      getAllFilesNode_shift (.dir r es2) [name],
      getAllFilesEntries_shift rest q, List.map_append, List.map_map]
    congr 1
    apply List.map_congr_left
    intro f _
    simp [shiftFile_comp]
  | (name, .file st sz a m) :: rest, q => by
    simp only [getAllFilesEntries, List.nil_append]
    rw [getAllFilesEntries_shift rest q, List.map_append]
    congr 1
    cases st <;> simp [shiftFile]

end

theorem mem_getAllFilesEntries_head (es : List (String × FSNode)) (f : CachedFile)
    (h : f ∈ getAllFilesEntries es []) :
    ∃ nm t, f.path = nm :: t ∧ nm ∈ es.map (fun e => e.1) := by
  induction es with
  | nil => simp [getAllFilesEntries] at h
  | cons e rest ih =>
    obtain ⟨name, c⟩ := e
    cases c with
    | dir r es2 =>
      simp only [getAllFilesEntries, List.nil_append, List.mem_append] at h
      rcases h with h | h
      · rw [getAllFilesNode_shift (.dir r es2) [name]] at h
        rcases List.mem_map.mp h with ⟨g, _, hg⟩
        exact ⟨name, g.path, by rw [← hg]; simp [shiftFile], by simp⟩
      · rcases ih h with ⟨nm, t, h1, h2⟩
        exact ⟨nm, t, h1, by simp [h2]⟩
    | file st sz a m =>
      simp only [getAllFilesEntries, List.nil_append, List.mem_append] at h
      rcases h with h | h
      · cases st with
        | false => simp at h
        | true =>
          simp only [if_true] at h
          simp only [List.mem_singleton] at h
          exact ⟨name, [], by rw [h], by simp⟩
      · rcases ih h with ⟨nm, t, h1, h2⟩
        exact ⟨nm, t, h1, by simp [h2]⟩

theorem mem_getAllFilesNode_ne_nil (n : FSNode) (f : CachedFile)
    (h : f ∈ getAllFilesNode n []) : f.path ≠ [] := by
  cases n with
  | file _ _ _ _ => simp [getAllFilesNode] at h
  | dir r es =>
    cases r with
    | false => simp [getAllFilesNode] at h
    | true =>
      simp only [getAllFilesNode] at h
      rcases mem_getAllFilesEntries_head es f h with ⟨nm, t, h1, _⟩
      simp [h1]

mutual

theorem getAllFilesNode_paths_nodup : ∀ (n : FSNode), wf n = true →
    ((getAllFilesNode n []).map (fun f => f.path)).Nodup
  | .file _ _ _ _, _ => by simp [getAllFilesNode]
  | .dir false _, _ => by simp [getAllFilesNode]
  | .dir true es, hwf => by
    simp only [getAllFilesNode]
    simp only [wf, Bool.and_eq_true] at hwf
    exact getAllFilesEntries_paths_nodup es hwf.1 hwf.2

theorem getAllFilesEntries_paths_nodup : ∀ (es : List (String × FSNode)),
    nodupKeys es = true → wfEntries es = true →
    ((getAllFilesEntries es []).map (fun f => f.path)).Nodup
  | [], _, _ => by simp [getAllFilesEntries]
  | (name, c) :: rest, hnd, hwf => by
    simp only [nodupKeys, Bool.and_eq_true, Bool.not_eq_true'] at hnd
    simp only [wfEntries, Bool.and_eq_true] at hwf
    have hrest := getAllFilesEntries_paths_nodup rest hnd.2 hwf.2
    have hname : name ∉ rest.map (fun e => e.1) := by
      intro hc
      rw [← contains_iff_mem] at hc
      simp_all
    have hdisj : ∀ p, (∃ g ∈ getAllFilesNode c [], p = name :: g.path) →
        p ∉ (getAllFilesEntries rest []).map (fun f => f.path) := by
      rintro p ⟨g, _, rfl⟩ hmem
      rcases List.mem_map.mp hmem with ⟨f, hf, hfp⟩
      rcases mem_getAllFilesEntries_head rest f hf with ⟨nm, t, hft, hnm⟩
      rw [hft] at hfp
      have : nm = name := by
        have := hfp
        simp only [List.cons.injEq] at this
        exact this.1
      exact hname (this ▸ hnm)
    cases c with
    | dir r es2 =>
      simp only [getAllFilesEntries, List.nil_append, List.map_append]
      rw [List.nodup_append]
      refine ⟨?_, hrest, ?_⟩
      · rw [getAllFilesNode_shift (.dir r es2) [name], List.map_map]
        have : ((getAllFilesNode (.dir r es2) []).map (fun f => (shiftFile [name] f).path)) =
            ((getAllFilesNode (.dir r es2) []).map (fun f => f.path)).map
              (fun p => name :: p) := by
          rw [List.map_map]; apply List.map_congr_left; intro f _; simp [shiftFile]
        rw [show ((fun f => f.path) ∘ shiftFile [name]) = (fun f => (shiftFile [name] f).path)
          from rfl, this]
        exact (getAllFilesNode_paths_nodup (.dir r es2) hwf.1).map
          (fun a b h => by simpa using h)
      · intro p hp
        rcases List.mem_map.mp hp with ⟨f, hf, hfp⟩
        rw [getAllFilesNode_shift (.dir r es2) [name]] at hf
        rcases List.mem_map.mp hf with ⟨g, hg, hgf⟩
        apply hdisj p
        exact ⟨g, hg, by rw [← hfp, ← hgf]; simp [shiftFile]⟩
    | file st sz a m =>
      cases st with
      | false => simpa [getAllFilesEntries] using hrest
      | true =>
        simp only [getAllFilesEntries, List.nil_append, if_true, List.map_append]
        rw [List.nodup_append]
        refine ⟨by simp, hrest, ?_⟩
        intro p hp
        simp only [List.map_cons, List.map_nil, List.mem_singleton] at hp
        intro hmem
        rcases List.mem_map.mp hmem with ⟨f, hf, hfp⟩
        rcases mem_getAllFilesEntries_head rest f hf with ⟨nm, t, hft, hnm⟩
        rw [hp] at hfp
        rw [hft] at hfp
        have : nm = name := by
          simp only [List.nil_append, List.cons.injEq] at hfp
          exact hfp.1
        exact hname (this ▸ hnm)

end

/-! ### Unlink commutes with the scan -/

theorem map_shift_filter (nm : String) (l : List CachedFile) (t : FPath) :
    (l.map (shiftFile [nm])).filter (fun g => !decide (g.path = nm :: t)) =
      (l.filter (fun g => !decide (g.path = t))).map (shiftFile [nm]) := by
  induction l with
  | nil => simp
  | cons f rest ih =>
    by_cases h : f.path = t
    · simp [List.filter_cons, shiftFile, h, ih]
    · simp [List.filter_cons, shiftFile, h, ih]

theorem unlinkNode_dir_inv (r : Bool) (es : List (String × FSNode)) (t : FPath) (n' : FSNode)
    (h : unlinkNode (.dir r es) t = some n') :
    ∃ name rest es', t = name :: rest ∧ unlinkEntries es name rest = some es' ∧
      n' = .dir r es' := by
  cases t with
  | nil => simp [unlinkNode] at h
  | cons name rest =>
    simp only [unlinkNode] at h
    cases he : unlinkEntries es name rest with
    | none => rw [he] at h; simp at h
    | some es' =>
      rw [he] at h
      simp only [Option.some.injEq] at h
      exact ⟨name, rest, es', rfl, he, h.symm⟩

/-- A scanned entry list contributes no file whose path starts with a name
absent from the entry names. -/
theorem scan_entries_filter_other (es : List (String × FSNode)) (name : String) (t : FPath)
    (hname : name ∉ es.map (fun e => e.1)) :
    (getAllFilesEntries es []).filter (fun g => !decide (g.path = name :: t)) =
      getAllFilesEntries es [] := by
  apply List.filter_eq_self.mpr
  intro f hf
  rcases mem_getAllFilesEntries_head es f hf with ⟨nm, t', h1, h2⟩
  simp only [Bool.not_eq_eq_eq_not, Bool.not_true, decide_eq_false_iff_not]
  intro hc
  rw [h1] at hc
  have : nm = name := (List.cons.injEq _ _ _ _ ▸ hc).1
  exact hname (this ▸ h2)

mutual

theorem unlink_scan_node : ∀ (n : FSNode) (t : FPath), wf n = true →
    (∃ f ∈ getAllFilesNode n [], f.path = t) →
    ∃ n', unlinkNode n t = some n' ∧ wf n' = true ∧
      getAllFilesNode n' [] =
        (getAllFilesNode n []).filter (fun g => !decide (g.path = t))
  | .file _ _ _ _, t, _, hmem => by simp [getAllFilesNode] at hmem
  | .dir false _, t, _, hmem => by simp [getAllFilesNode] at hmem
  | .dir true es, t, hwf, hmem => by
    simp only [getAllFilesNode] at hmem
    simp only [wf, Bool.and_eq_true] at hwf
    cases t with
    | nil =>
      rcases hmem with ⟨f, hf, hfp⟩
      exact absurd hfp (mem_getAllFilesNode_ne_nil (.dir true es) f (by simpa [getAllFilesNode]))
    | cons name tail =>
      rcases unlink_scan_entries es name tail hwf.1 hwf.2 hmem with
        ⟨es', hu, hnd', hwf', _, hscan⟩
      refine ⟨.dir true es', ?_, ?_, ?_⟩
      · simp [unlinkNode, hu]
      · simp [wf, hnd', hwf']
      · simpa [getAllFilesNode] using hscan

theorem unlink_scan_entries : ∀ (es : List (String × FSNode)) (name : String) (tail : FPath),
    nodupKeys es = true → wfEntries es = true →
    (∃ f ∈ getAllFilesEntries es [], f.path = name :: tail) →
    ∃ es', unlinkEntries es name tail = some es' ∧
      nodupKeys es' = true ∧ wfEntries es' = true ∧
      List.Sublist (es'.map (fun e => e.1)) (es.map (fun e => e.1)) ∧
      getAllFilesEntries es' [] =
        (getAllFilesEntries es []).filter (fun g => !decide (g.path = name :: tail))
  | [], name, tail, _, _, hmem => by simp [getAllFilesEntries] at hmem
  | (nm, c) :: rest, name, tail, hnd, hwf, hmem => by
    simp only [nodupKeys, Bool.and_eq_true, Bool.not_eq_true'] at hnd
    simp only [wfEntries, Bool.and_eq_true] at hwf
    have hnm_rest : nm ∉ rest.map (fun e => e.1) := by
      intro hc
      rw [← contains_iff_mem] at hc
      simp_all
    by_cases he : nm = name
    · subst he
      cases c with
      | file st sz a m =>
        -- the named entry is a file: it must be the target, so `tail = []`
        have htail : tail = [] := by
          rcases hmem with ⟨f, hf, hfp⟩
          simp only [getAllFilesEntries, List.nil_append, List.mem_append] at hf
          rcases hf with hf | hf
          · cases st with
            | false => simp at hf
            | true =>
              simp only [if_true, List.mem_singleton] at hf
              rw [hf] at hfp
              simpa using hfp.symm
          · rcases mem_getAllFilesEntries_head rest f hf with ⟨nm', t', h1, h2⟩
            rw [h1] at hfp
            have : nm' = nm := (List.cons.injEq _ _ _ _ ▸ hfp).1
            exact absurd (this ▸ h2) hnm_rest
        subst htail
        refine ⟨rest, by simp [unlinkEntries], hnd.2, hwf.2, ?_, ?_⟩
        · simp only [List.map_cons]
          exact (List.sublist_cons_self _ _)
        · cases st <;>
            simp [getAllFilesEntries, List.filter_append,
              scan_entries_filter_other rest nm [] hnm_rest]
      | dir r2 es2 =>
        -- the named entry is a directory: the target lies inside it
        have hmem2 : ∃ g ∈ getAllFilesNode (.dir r2 es2) [], g.path = tail := by
          rcases hmem with ⟨f, hf, hfp⟩
          simp only [getAllFilesEntries, List.nil_append, List.mem_append] at hf
          rcases hf with hf | hf
          · rw [getAllFilesNode_shift (.dir r2 es2) [nm]] at hf
            rcases List.mem_map.mp hf with ⟨g, hg, hgf⟩
            refine ⟨g, hg, ?_⟩
            have : ([nm] ++ g.path : FPath) = nm :: tail := by
              rw [← hfp, ← hgf]; simp [shiftFile]
            simpa using this
          · rcases mem_getAllFilesEntries_head rest f hf with ⟨nm', t', h1, h2⟩
            rw [h1] at hfp
            have : nm' = nm := (List.cons.injEq _ _ _ _ ▸ hfp).1
            exact absurd (this ▸ h2) hnm_rest
        have htail_ne : tail ≠ [] := by
          rcases hmem2 with ⟨g, hg, hgp⟩
          exact hgp ▸ mem_getAllFilesNode_ne_nil _ g hg
        rcases unlink_scan_node (.dir r2 es2) tail hwf.1 hmem2 with ⟨c', hu, hwf', hscan⟩
        rcases unlinkNode_dir_inv r2 es2 tail c' hu with ⟨nm2, rest2, es'', hteq, _, hceq⟩
        refine ⟨(nm, c') :: rest, ?_, ?_, ?_, ?_, ?_⟩
        · cases tail with
          | nil => exact absurd rfl htail_ne
          | cons t0 t1 => simp [unlinkEntries, hu]
        · simp only [nodupKeys, Bool.and_eq_true, Bool.not_eq_true']
          refine ⟨?_, hnd.2⟩
          rw [Bool.eq_false_iff]
          intro hc
          exact hnm_rest ((contains_iff_mem _ _).mp hc)
        · simp [wfEntries, hwf', hwf.2]
        · simp
        · subst hceq
          simp only [getAllFilesEntries, List.nil_append, List.filter_append,
            scan_entries_filter_other rest nm tail hnm_rest]
          congr 1
          rw [getAllFilesNode_shift (.dir r2 es'') [nm],
            getAllFilesNode_shift (.dir r2 es2) [nm], hscan, map_shift_filter]
    · -- the head entry has a different name: recurse on the remaining entries
      have hmem2 : ∃ f ∈ getAllFilesEntries rest [], f.path = name :: tail := by
        rcases hmem with ⟨f, hf, hfp⟩
        cases c with
        | dir r2 es2 =>
          simp only [getAllFilesEntries, List.nil_append, List.mem_append] at hf
          rcases hf with hf | hf
          · rw [getAllFilesNode_shift (.dir r2 es2) [nm]] at hf
            rcases List.mem_map.mp hf with ⟨g, _, hgf⟩
            exfalso
            apply he
            have : ([nm] ++ g.path : FPath) = name :: tail := by
              rw [← hfp, ← hgf]; simp [shiftFile]
            simpa using (List.cons.injEq _ _ _ _ ▸ this).1
          · exact ⟨f, hf, hfp⟩
        | file st sz a m =>
          simp only [getAllFilesEntries, List.nil_append, List.mem_append] at hf
          rcases hf with hf | hf
          · cases st with
            | false => simp at hf
            | true =>
              simp only [if_true, List.mem_singleton] at hf
              rw [hf] at hfp
              exact absurd (List.cons.injEq _ _ _ _ ▸ hfp).1 he
          · exact ⟨f, hf, hfp⟩
      rcases unlink_scan_entries rest name tail hnd.2 hwf.2 hmem2 with
        ⟨es'', hu, hnd', hwf', hsubl, hscan⟩
      refine ⟨(nm, c) :: es'', ?_, ?_, ?_, ?_, ?_⟩
      · simp [unlinkEntries, he, hu]
      · simp only [nodupKeys, Bool.and_eq_true, Bool.not_eq_true']
        refine ⟨?_, hnd'⟩
        rw [Bool.eq_false_iff]
        intro hc
        exact hnm_rest (hsubl.subset ((contains_iff_mem _ _).mp hc))
      · simp [wfEntries, hwf.1, hwf']
      · simp only [List.map_cons]
        exact hsubl.cons₂ nm
      · have hcontrib : ∀ (l : List CachedFile),
            (∀ g ∈ l, ∃ t', g.path = nm :: t') →
            l.filter (fun g => !decide (g.path = name :: tail)) = l := by
          intro l hl
          apply List.filter_eq_self.mpr
          intro g hg
          rcases hl g hg with ⟨t', ht'⟩
          simp only [Bool.not_eq_eq_eq_not, Bool.not_true, decide_eq_false_iff_not]
          intro hc
          rw [ht'] at hc
          exact he (List.cons.injEq _ _ _ _ ▸ hc).1
        cases c with
        | dir r2 es2 =>
          simp only [getAllFilesEntries, List.nil_append, List.filter_append, hscan]
          congr 1
          refine (hcontrib _ ?_).symm
          intro g hg
          rw [getAllFilesNode_shift (.dir r2 es2) [nm]] at hg
          rcases List.mem_map.mp hg with ⟨g', _, hg'⟩
          exact ⟨g'.path, by rw [← hg']; simp [shiftFile]⟩
        | file st sz a m =>
          simp only [getAllFilesEntries, List.nil_append, List.filter_append, hscan]
          congr 1
          refine (hcontrib _ ?_).symm
          intro g hg
          cases st with
          | false => simp at hg
          | true =>
            simp only [if_true, List.mem_singleton] at hg
            exact ⟨[], by rw [hg]⟩

end

/-! ### Top-level filesystem wrappers -/

theorem getAllFiles_paths_nodup (fs : Option FSNode) (hwf : wfOpt fs = true) :
    ((getAllFiles fs).map (fun f => f.path)).Nodup := by
  cases fs with
  | none => simp [getAllFiles]
  | some n => exact getAllFilesNode_paths_nodup n hwf

/-- `cleanEmptyDirs(dir, dir)` — in particular the call
`cleanEmptyDirs(cacheDirectory, cacheDirectory)` made by `runCleanup` —
returns at once and changes nothing. -/
theorem cleanEmptyDirs_self (fs : Option FSNode) (p : FPath) :
    cleanEmptyDirs fs p p = fs := by
  simp [cleanEmptyDirs, cleanEmptyDirsFuel]

theorem safeDelete_of_mem (delOk : FPath → Bool) (fs : Option FSNode) (f : CachedFile)
    (hwf : wfOpt fs = true) (hmem : f ∈ getAllFiles fs) :
    (delOk f.path = false → safeDelete delOk fs f.path = (false, fs)) ∧
    (delOk f.path = true → ∃ fs', safeDelete delOk fs f.path = (true, fs') ∧
      wfOpt fs' = true ∧
      getAllFiles fs' = (getAllFiles fs).filter (fun g => !decide (g.path = f.path))) := by
  cases fs with
  | none => simp [getAllFiles] at hmem
  | some n =>
    constructor
    · intro hd
      simp [safeDelete, hd]
    · intro hd
      have hex : ∃ g ∈ getAllFilesNode n [], g.path = f.path :=
        ⟨f, by simpa [getAllFiles] using hmem, rfl⟩
      rcases unlink_scan_node n f.path hwf hex with ⟨n', hu, hwf', hscan⟩
      exact ⟨some n', by simp [safeDelete, hd, hu], hwf', by simpa [getAllFiles] using hscan⟩

/-! ### Characterization of the TTL pass -/

theorem ttlLoop_spec (delOk : FPath → Bool) (now ttl : Int) (files : List CachedFile) :
    ∀ (res : CleanupResult) (rem : List CachedFile) (fs : Option FSNode),
    wfOpt fs = true →
    (∀ f ∈ files, f ∈ getAllFiles fs) →
    (files.map (fun f => f.path)).Nodup →
    (ttlLoop delOk now ttl files res rem fs).1 =
      { filesDeleted := res.filesDeleted + (ttlDeleted delOk now ttl files).length
        bytesFreed := res.bytesFreed + sumSizes (ttlDeleted delOk now ttl files)
        expiredFiles := res.expiredFiles ++
          (ttlDeleted delOk now ttl files).map (fun f => f.path)
        lruFiles := res.lruFiles
        errors := res.errors ++
          (ttlFailed delOk now ttl files).map (fun f => (DelPhase.ttl, f.path)) } ∧
    (ttlLoop delOk now ttl files res rem fs).2.1 = rem ++ ttlSurvivors now ttl files ∧
    wfOpt (ttlLoop delOk now ttl files res rem fs).2.2 = true ∧
    getAllFiles (ttlLoop delOk now ttl files res rem fs).2.2 =
      (getAllFiles fs).filter (fun g =>
        !decide (g.path ∈ (ttlDeleted delOk now ttl files).map (fun f => f.path))) := by
  induction files with
  | nil =>
    intro res rem fs hwf hmem hnd
    simp [ttlLoop, ttlDeleted, ttlFailed, ttlSurvivors, sumSizes, hwf]
  | cons f rest ih =>
    intro res rem fs hwf hmem hnd
    have hf_mem : f ∈ getAllFiles fs := hmem f (by simp)
    have hnd_tail : (rest.map (fun g => g.path)).Nodup := by
      simp only [List.map_cons, List.nodup_cons] at hnd
      exact hnd.2
    have hf_not_tail : f.path ∉ rest.map (fun g => g.path) := by
      simp only [List.map_cons, List.nodup_cons] at hnd
      exact hnd.1
    by_cases hexp : now - f.modTime > ttl
    · by_cases hd : delOk f.path = true
      · -- expired, deletion succeeds
        rcases (safeDelete_of_mem delOk fs f hwf hf_mem).2 hd with ⟨fs', hsd, hwf', hscan'⟩
        have hmem' : ∀ g ∈ rest, g ∈ getAllFiles fs' := by
          intro g hg
          rw [hscan']
          refine List.mem_filter.mpr ⟨hmem g (by simp [hg]), ?_⟩
          simp only [Bool.not_eq_eq_eq_not, Bool.not_true, decide_eq_false_iff_not]
          intro hc
          exact hf_not_tail (hc ▸ List.mem_map_of_mem (fun x => x.path) hg)
        have := ih ({ res with
            filesDeleted := res.filesDeleted + 1
            bytesFreed := res.bytesFreed + f.size
            expiredFiles := res.expiredFiles ++ [f.path] }) rem fs' hwf' hmem' hnd_tail
        rcases this with ⟨h1, h2, h3, h4⟩
        have hD : ttlDeleted delOk now ttl (f :: rest) = f :: ttlDeleted delOk now ttl rest := by
          simp [ttlDeleted, List.filter_cons, expiredB, hexp, hd]
        have hE : ttlFailed delOk now ttl (f :: rest) = ttlFailed delOk now ttl rest := by
          simp [ttlFailed, List.filter_cons, expiredB, hexp, hd]
        have hS : ttlSurvivors now ttl (f :: rest) = ttlSurvivors now ttl rest := by
          simp [ttlSurvivors, List.filter_cons, expiredB, hexp]
        have hloop : ttlLoop delOk now ttl (f :: rest) res rem fs =
            ttlLoop delOk now ttl rest ({ res with
              filesDeleted := res.filesDeleted + 1
              bytesFreed := res.bytesFreed + f.size
              expiredFiles := res.expiredFiles ++ [f.path] }) rem fs' := by
          simp [ttlLoop, hexp, hsd]
        rw [hloop, hD, hE, hS]
        refine ⟨?_, h2, h3, ?_⟩
        · rw [h1]
          simp only [List.length_cons, List.map_cons, sumSizes_cons]
          congr 1 <;> first
          | omega
          | simp [List.append_assoc]
        · rw [h4, hscan']
          rw [List.filter_filter]
          apply List.filter_congr
          intro g _
          by_cases h1p : g.path = f.path <;>
            by_cases h2p : g.path ∈ (ttlDeleted delOk now ttl rest).map (fun x => x.path) <;>
            simp [h1p, h2p, List.mem_cons]
      · -- expired, deletion fails
        rw [Bool.not_eq_true] at hd
        have hsd : safeDelete delOk fs f.path = (false, fs) :=
          (safeDelete_of_mem delOk fs f hwf hf_mem).1 hd
        have hmem' : ∀ g ∈ rest, g ∈ getAllFiles fs := fun g hg => hmem g (by simp [hg])
        have := ih ({ res with errors := res.errors ++ [(DelPhase.ttl, f.path)] })
          rem fs hwf hmem' hnd_tail
        rcases this with ⟨h1, h2, h3, h4⟩
        have hD : ttlDeleted delOk now ttl (f :: rest) = ttlDeleted delOk now ttl rest := by
          simp [ttlDeleted, List.filter_cons, expiredB, hexp, hd]
        have hE : ttlFailed delOk now ttl (f :: rest) = f :: ttlFailed delOk now ttl rest := by
          simp [ttlFailed, List.filter_cons, expiredB, hexp, hd]
        have hS : ttlSurvivors now ttl (f :: rest) = ttlSurvivors now ttl rest := by
          simp [ttlSurvivors, List.filter_cons, expiredB, hexp]
        have hloop : ttlLoop delOk now ttl (f :: rest) res rem fs =
            ttlLoop delOk now ttl rest
              ({ res with errors := res.errors ++ [(DelPhase.ttl, f.path)] }) rem fs := by
          simp [ttlLoop, hexp, hsd]
        rw [hloop, hD, hE, hS]
        refine ⟨?_, h2, h3, h4⟩
        rw [h1]
        simp [List.append_assoc]
    · -- not expired: survivor
      have hmem' : ∀ g ∈ rest, g ∈ getAllFiles fs := fun g hg => hmem g (by simp [hg])
      have := ih res (rem ++ [f]) fs hwf hmem' hnd_tail
      rcases this with ⟨h1, h2, h3, h4⟩
      have hD : ttlDeleted delOk now ttl (f :: rest) = ttlDeleted delOk now ttl rest := by
        simp [ttlDeleted, List.filter_cons, expiredB, hexp]
      have hE : ttlFailed delOk now ttl (f :: rest) = ttlFailed delOk now ttl rest := by
        simp [ttlFailed, List.filter_cons, expiredB, hexp]
      have hS : ttlSurvivors now ttl (f :: rest) = f :: ttlSurvivors now ttl rest := by
        simp [ttlSurvivors, List.filter_cons, expiredB, hexp]
      have hloop : ttlLoop delOk now ttl (f :: rest) res rem fs =
          ttlLoop delOk now ttl rest res (rem ++ [f]) fs := by
        simp [ttlLoop, hexp]
      rw [hloop, hD, hE, hS]
      refine ⟨h1, ?_, h3, h4⟩
      rw [h2]
      simp [List.append_assoc]

/-! ### Characterization of the LRU pass -/

theorem lruLoop_spec (delOk : FPath → Bool) (maxSize : Int) (cands : List CachedFile) :
    ∀ (cs : Int) (res : CleanupResult) (fs : Option FSNode),
    wfOpt fs = true →
    (∀ f ∈ cands, f ∈ getAllFiles fs) →
    (cands.map (fun f => f.path)).Nodup →
    ∃ D E : List CachedFile,
      List.Sublist D cands ∧
      (∀ f ∈ D, delOk f.path = true) ∧
      List.Sublist E cands ∧
      (∀ f ∈ E, delOk f.path = false) ∧
      (lruLoop delOk maxSize cands cs res fs).1 =
        { filesDeleted := res.filesDeleted + D.length
          bytesFreed := res.bytesFreed + sumSizes D
          expiredFiles := res.expiredFiles
          lruFiles := res.lruFiles ++ D.map (fun f => f.path)
          errors := res.errors ++ E.map (fun f => (DelPhase.lru, f.path)) } ∧
      (lruLoop delOk maxSize cands cs res fs).2.1 = cs - sumSizes D ∧
      wfOpt (lruLoop delOk maxSize cands cs res fs).2.2 = true ∧
      getAllFiles (lruLoop delOk maxSize cands cs res fs).2.2 =
        (getAllFiles fs).filter (fun g =>
          !decide (g.path ∈ D.map (fun f => f.path))) ∧
      ((lruLoop delOk maxSize cands cs res fs).2.1 ≤ maxSize ∨
        (∀ f ∈ cands, f ∈ D ∨ f ∈ E)) := by
  induction cands with
  | nil =>
    intro cs res fs hwf hmem hnd
    refine ⟨[], [], List.Sublist.refl _, by simp, List.Sublist.refl _, by simp, ?_, ?_, ?_, ?_, ?_⟩
    · simp [lruLoop, sumSizes]
    · simp [lruLoop, sumSizes]
    · simpa [lruLoop] using hwf
    · simp [lruLoop]
    · right; simp
  | cons f rest ih =>
    intro cs res fs hwf hmem hnd
    have hf_mem : f ∈ getAllFiles fs := hmem f (by simp)
    have hnd_tail : (rest.map (fun g => g.path)).Nodup := by
      simp only [List.map_cons, List.nodup_cons] at hnd
      exact hnd.2
    have hf_not_tail : f.path ∉ rest.map (fun g => g.path) := by
      simp only [List.map_cons, List.nodup_cons] at hnd
      exact hnd.1
    by_cases hbr : cs ≤ maxSize
    · -- break out of the loop immediately
      have hloop : lruLoop delOk maxSize (f :: rest) cs res fs = (res, cs, fs) := by
        simp [lruLoop, hbr]
      refine ⟨[], [], List.nil_sublist _, by simp, List.nil_sublist _, by simp, ?_, ?_, ?_, ?_, ?_⟩
      · simp [hloop, sumSizes]
      · simp [hloop, sumSizes]
      · simpa [hloop] using hwf
      · simp [hloop]
      · left; simpa [hloop] using hbr
    · by_cases hd : delOk f.path = true
      · -- delete this candidate
        rcases (safeDelete_of_mem delOk fs f hwf hf_mem).2 hd with ⟨fs', hsd, hwf', hscan'⟩
        have hmem' : ∀ g ∈ rest, g ∈ getAllFiles fs' := by
          intro g hg
          rw [hscan']
          refine List.mem_filter.mpr ⟨hmem g (by simp [hg]), ?_⟩
          simp only [Bool.not_eq_eq_eq_not, Bool.not_true, decide_eq_false_iff_not]
          intro hc
          exact hf_not_tail (hc ▸ List.mem_map_of_mem (fun x => x.path) hg)
        rcases ih (cs - f.size) ({ res with
            filesDeleted := res.filesDeleted + 1
            bytesFreed := res.bytesFreed + f.size
            lruFiles := res.lruFiles ++ [f.path] }) fs' hwf' hmem' hnd_tail with
          ⟨D', E', hDs, hDok, hEs, hEok, h1, h2, h3, h4, h5⟩
        have hloop : lruLoop delOk maxSize (f :: rest) cs res fs =
            lruLoop delOk maxSize rest (cs - f.size) ({ res with
              filesDeleted := res.filesDeleted + 1
              bytesFreed := res.bytesFreed + f.size
              lruFiles := res.lruFiles ++ [f.path] }) fs' := by
          simp [lruLoop, hbr, hsd]
        refine ⟨f :: D', E', hDs.cons₂ f, ?_, hEs.cons f, hEok, ?_, ?_, ?_, ?_, ?_⟩
        · intro g hg
          rcases List.mem_cons.mp hg with hg | hg
          · subst hg; exact hd
          · exact hDok g hg
        · rw [hloop, h1]
          simp only [List.length_cons, List.map_cons, sumSizes_cons]
          congr 1 <;> first
          | omega
          | simp [List.append_assoc]
        · rw [hloop, h2, sumSizes_cons]; omega
        · rw [hloop]; exact h3
        · rw [hloop, h4, hscan', List.filter_filter]
          apply List.filter_congr
          intro g _
          by_cases h1p : g.path = f.path <;>
            by_cases h2p : g.path ∈ D'.map (fun x => x.path) <;>
            simp [h1p, h2p, List.mem_cons]
        · rw [hloop]
          rcases h5 with h5 | h5
          · left; exact h5
          · right
            intro g hg
            rcases List.mem_cons.mp hg with hg | hg
            · subst hg; left; simp
            · rcases h5 g hg with h | h
              · left; simp [h]
              · right; exact h
      · -- deletion of this candidate fails
        rw [Bool.not_eq_true] at hd
        have hsd : safeDelete delOk fs f.path = (false, fs) :=
          (safeDelete_of_mem delOk fs f hwf hf_mem).1 hd
        have hmem' : ∀ g ∈ rest, g ∈ getAllFiles fs := fun g hg => hmem g (by simp [hg])
        rcases ih cs ({ res with errors := res.errors ++ [(DelPhase.lru, f.path)] })
          fs hwf hmem' hnd_tail with
          ⟨D', E', hDs, hDok, hEs, hEok, h1, h2, h3, h4, h5⟩
        have hloop : lruLoop delOk maxSize (f :: rest) cs res fs =
            lruLoop delOk maxSize rest cs
              ({ res with errors := res.errors ++ [(DelPhase.lru, f.path)] }) fs := by
          simp [lruLoop, hbr, hsd]
        refine ⟨D', f :: E', hDs.cons f, hDok, hEs.cons₂ f, ?_, ?_, ?_, ?_, ?_, ?_⟩
        · intro g hg
          rcases List.mem_cons.mp hg with hg | hg
          · subst hg; exact hd
          · exact hEok g hg
        · rw [hloop, h1]
          simp only [List.map_cons]
          congr 1 <;> simp [List.append_assoc]
        · rw [hloop]; exact h2
        · rw [hloop]; exact h3
        · rw [hloop]; exact h4
        · rw [hloop]
          rcases h5 with h5 | h5
          · left; exact h5
          · right
            intro g hg
            rcases List.mem_cons.mp hg with hg | hg
            · subst hg; right; simp
            · rcases h5 g hg with h | h
              · left; exact h
              · right; simp [h]

/-- Prefix characterization of the LRU pass: the loop processes exactly a
prefix of the candidate list — every processed candidate is deleted (on
`delOk`) or recorded as an `(lru, path)` error (failures never stop the
loop) — and the prefix is proper only when the running total has reached the
limit. -/
theorem lruLoop_attempts (delOk : FPath → Bool) (maxSize : Int) (cands : List CachedFile) :
    ∀ (cs : Int) (res : CleanupResult) (fs : Option FSNode),
    wfOpt fs = true →
    (∀ f ∈ cands, f ∈ getAllFiles fs) →
    (cands.map (fun f => f.path)).Nodup →
    ∃ n : Nat,
      (lruLoop delOk maxSize cands cs res fs).1.errors =
        res.errors ++ ((cands.take n).filter (fun f => !delOk f.path)).map
          (fun f => (DelPhase.lru, f.path)) ∧
      (lruLoop delOk maxSize cands cs res fs).1.lruFiles =
        res.lruFiles ++ ((cands.take n).filter (fun f => delOk f.path)).map
          (fun f => f.path) ∧
      (lruLoop delOk maxSize cands cs res fs).2.1 =
        cs - sumSizes ((cands.take n).filter (fun f => delOk f.path)) ∧
      (n = cands.length ∨ (lruLoop delOk maxSize cands cs res fs).2.1 ≤ maxSize) := by
  induction cands with
  | nil =>
    intro cs res fs hwf hmem hnd
    refine ⟨0, ?_, ?_, ?_, Or.inl rfl⟩
    · simp [lruLoop]
    · simp [lruLoop]
    · simp [lruLoop, sumSizes]
  | cons f rest ih =>
    intro cs res fs hwf hmem hnd
    have hf_mem : f ∈ getAllFiles fs := hmem f (by simp)
    have hnd_tail : (rest.map (fun g => g.path)).Nodup := by
      simp only [List.map_cons, List.nodup_cons] at hnd
      exact hnd.2
    have hf_not_tail : f.path ∉ rest.map (fun g => g.path) := by
      simp only [List.map_cons, List.nodup_cons] at hnd
      exact hnd.1
    by_cases hbr : cs ≤ maxSize
    · have hloop : lruLoop delOk maxSize (f :: rest) cs res fs = (res, cs, fs) := by
        simp [lruLoop, hbr]
      refine ⟨0, ?_, ?_, ?_, Or.inr (by simpa [hloop] using hbr)⟩
      · simp [hloop]
      · simp [hloop]
      · simp [hloop, sumSizes]
    · by_cases hd : delOk f.path = true
      · rcases (safeDelete_of_mem delOk fs f hwf hf_mem).2 hd with ⟨fs', hsd, hwf', hscan'⟩
        have hmem' : ∀ g ∈ rest, g ∈ getAllFiles fs' := by
          intro g hg
          rw [hscan']
          refine List.mem_filter.mpr ⟨hmem g (by simp [hg]), ?_⟩
          simp only [Bool.not_eq_eq_eq_not, Bool.not_true, decide_eq_false_iff_not]
          intro hc
          exact hf_not_tail (hc ▸ List.mem_map_of_mem (fun x => x.path) hg)
        rcases ih (cs - f.size) ({ res with
            filesDeleted := res.filesDeleted + 1
            bytesFreed := res.bytesFreed + f.size
            lruFiles := res.lruFiles ++ [f.path] }) fs' hwf' hmem' hnd_tail with
          ⟨n', h1, h2, h3, h4⟩
        have hloop : lruLoop delOk maxSize (f :: rest) cs res fs =
            lruLoop delOk maxSize rest (cs - f.size) ({ res with
              filesDeleted := res.filesDeleted + 1
              bytesFreed := res.bytesFreed + f.size
              lruFiles := res.lruFiles ++ [f.path] }) fs' := by
          simp [lruLoop, hbr, hsd]
        refine ⟨n' + 1, ?_, ?_, ?_, ?_⟩
        · rw [hloop, h1]
          simp [List.take_succ_cons, List.filter_cons, hd]
        · rw [hloop, h2]
          simp [List.take_succ_cons, List.filter_cons, hd, List.append_assoc]
        · rw [hloop, h3]
          simp only [List.take_succ_cons, List.filter_cons, hd, if_true, sumSizes_cons]
          omega
        · rw [hloop]
          rcases h4 with h4 | h4
          · left; simp [h4]
          · right; exact h4
      · rw [Bool.not_eq_true] at hd
        have hsd : safeDelete delOk fs f.path = (false, fs) :=
          (safeDelete_of_mem delOk fs f hwf hf_mem).1 hd
        have hmem' : ∀ g ∈ rest, g ∈ getAllFiles fs := fun g hg => hmem g (by simp [hg])
        rcases ih cs ({ res with errors := res.errors ++ [(DelPhase.lru, f.path)] })
          fs hwf hmem' hnd_tail with ⟨n', h1, h2, h3, h4⟩
        have hloop : lruLoop delOk maxSize (f :: rest) cs res fs =
            lruLoop delOk maxSize rest cs
              ({ res with errors := res.errors ++ [(DelPhase.lru, f.path)] }) fs := by
          simp [lruLoop, hbr, hsd]
        refine ⟨n' + 1, ?_, ?_, ?_, ?_⟩
        · rw [hloop, h1]
          simp [List.take_succ_cons, List.filter_cons, hd, List.append_assoc]
        · rw [hloop, h2]
          simp [List.take_succ_cons, List.filter_cons, hd]
        · rw [hloop, h3]
          simp [List.take_succ_cons, List.filter_cons, hd]
        · rw [hloop]
          rcases h4 with h4 | h4
          · left; simp [h4]
          · right; exact h4

/-! ### Characterization of `runCleanup` -/

theorem runCleanup_empty (delOk : FPath → Bool) (cfg : CleanupConfig) (now : Int)
    (fs : Option FSNode) (h : getAllFiles fs = []) :
    runCleanup delOk cfg now fs = (emptyResult, fs) := by
  simp [runCleanup, h]

theorem runCleanup_eq_phases (delOk : FPath → Bool) (cfg : CleanupConfig) (now : Int)
    (fs : Option FSNode) (hne : (getAllFiles fs).length ≠ 0) :
    runCleanup delOk cfg now fs =
      ((if sumSizes (ttlLoop delOk now cfg.ttlMs (getAllFiles fs) emptyResult [] fs).2.1 >
            cfg.maxSizeBytes then
          lruLoop delOk cfg.maxSizeBytes
            (sortByAccess (ttlLoop delOk now cfg.ttlMs (getAllFiles fs) emptyResult [] fs).2.1)
            (sumSizes (ttlLoop delOk now cfg.ttlMs (getAllFiles fs) emptyResult [] fs).2.1)
            (ttlLoop delOk now cfg.ttlMs (getAllFiles fs) emptyResult [] fs).1
            (ttlLoop delOk now cfg.ttlMs (getAllFiles fs) emptyResult [] fs).2.2
        else
          ((ttlLoop delOk now cfg.ttlMs (getAllFiles fs) emptyResult [] fs).1,
            sumSizes (ttlLoop delOk now cfg.ttlMs (getAllFiles fs) emptyResult [] fs).2.1,
            (ttlLoop delOk now cfg.ttlMs (getAllFiles fs) emptyResult [] fs).2.2)).1,
       (if sumSizes (ttlLoop delOk now cfg.ttlMs (getAllFiles fs) emptyResult [] fs).2.1 >
            cfg.maxSizeBytes then
          lruLoop delOk cfg.maxSizeBytes
            (sortByAccess (ttlLoop delOk now cfg.ttlMs (getAllFiles fs) emptyResult [] fs).2.1)
            (sumSizes (ttlLoop delOk now cfg.ttlMs (getAllFiles fs) emptyResult [] fs).2.1)
            (ttlLoop delOk now cfg.ttlMs (getAllFiles fs) emptyResult [] fs).1
            (ttlLoop delOk now cfg.ttlMs (getAllFiles fs) emptyResult [] fs).2.2
        else
          ((ttlLoop delOk now cfg.ttlMs (getAllFiles fs) emptyResult [] fs).1,
            sumSizes (ttlLoop delOk now cfg.ttlMs (getAllFiles fs) emptyResult [] fs).2.1,
            (ttlLoop delOk now cfg.ttlMs (getAllFiles fs) emptyResult [] fs).2.2)).2.2) := by
  simp only [runCleanup, if_neg hne, cleanEmptyDirs_self]

theorem runCleanup_spec (delOk : FPath → Bool) (cfg : CleanupConfig) (now : Int)
    (fs : Option FSNode) (hwf : wfOpt fs = true) (hne : getAllFiles fs ≠ []) :
    ∃ D2 E2 : List CachedFile,
      List.Sublist D2 (sortByAccess (ttlSurvivors now cfg.ttlMs (getAllFiles fs))) ∧
      (∀ f ∈ D2, delOk f.path = true) ∧
      List.Sublist E2 (sortByAccess (ttlSurvivors now cfg.ttlMs (getAllFiles fs))) ∧
      (∀ f ∈ E2, delOk f.path = false) ∧
      (runCleanup delOk cfg now fs).1 =
        { filesDeleted := (ttlDeleted delOk now cfg.ttlMs (getAllFiles fs)).length + D2.length
          bytesFreed := sumSizes (ttlDeleted delOk now cfg.ttlMs (getAllFiles fs)) + sumSizes D2
          expiredFiles := (ttlDeleted delOk now cfg.ttlMs (getAllFiles fs)).map (fun f => f.path)
          lruFiles := D2.map (fun f => f.path)
          errors :=
            (ttlFailed delOk now cfg.ttlMs (getAllFiles fs)).map
              (fun f => (DelPhase.ttl, f.path)) ++
            E2.map (fun f => (DelPhase.lru, f.path)) } ∧
      wfOpt (runCleanup delOk cfg now fs).2 = true ∧
      getAllFiles (runCleanup delOk cfg now fs).2 =
        (getAllFiles fs).filter (fun g =>
          !decide (g.path ∈
            (ttlDeleted delOk now cfg.ttlMs (getAllFiles fs)).map (fun f => f.path) ++
            D2.map (fun f => f.path))) ∧
      (sumSizes (ttlSurvivors now cfg.ttlMs (getAllFiles fs)) - sumSizes D2 ≤ cfg.maxSizeBytes ∨
        (∀ f ∈ sortByAccess (ttlSurvivors now cfg.ttlMs (getAllFiles fs)), f ∈ D2 ∨ f ∈ E2)) ∧
      (sumSizes (ttlSurvivors now cfg.ttlMs (getAllFiles fs)) ≤ cfg.maxSizeBytes →
        D2 = [] ∧ E2 = []) := by
  have hlen : (getAllFiles fs).length ≠ 0 := by
    intro h
    exact hne (List.length_eq_zero.mp h)
  have hnd := getAllFiles_paths_nodup fs hwf
  rcases ttlLoop_spec delOk now cfg.ttlMs (getAllFiles fs) emptyResult [] fs hwf
    (fun f hf => hf) hnd with ⟨h1, h2, h3, h4⟩
  rw [List.nil_append] at h2
  -- survivors are present in the filesystem after the TTL pass
  have hSmem : ∀ g ∈ ttlSurvivors now cfg.ttlMs (getAllFiles fs),
      g ∈ getAllFiles (ttlLoop delOk now cfg.ttlMs (getAllFiles fs) emptyResult [] fs).2.2 := by
    intro g hg
    rw [h4]
    rcases List.mem_filter.mp hg with ⟨hgf, hgne⟩
    refine List.mem_filter.mpr ⟨hgf, ?_⟩
    simp only [Bool.not_eq_eq_eq_not, Bool.not_true, decide_eq_false_iff_not]
    intro hc
    rcases List.mem_map.mp hc with ⟨d, hd, hdp⟩
    rcases List.mem_filter.mp hd with ⟨hdf, hdexp⟩
    have : d = g := path_inj hnd hdf hgf hdp
    subst this
    rw [Bool.and_eq_true] at hdexp
    rw [hdexp.1] at hgne
    simp at hgne
  have hSnodup : ((ttlSurvivors now cfg.ttlMs (getAllFiles fs)).map (fun f => f.path)).Nodup := by
    refine List.Nodup.sublist ?_ hnd
    exact List.Sublist.map _ (List.filter_sublist _)
  have hsortnodup :
      ((sortByAccess (ttlSurvivors now cfg.ttlMs (getAllFiles fs))).map (fun f => f.path)).Nodup := by
    exact ((sortByAccess_perm _).map _).nodup_iff.mpr hSnodup
  have hsortmem : ∀ g ∈ sortByAccess (ttlSurvivors now cfg.ttlMs (getAllFiles fs)),
      g ∈ getAllFiles (ttlLoop delOk now cfg.ttlMs (getAllFiles fs) emptyResult [] fs).2.2 := by
    intro g hg
    exact hSmem g ((sortByAccess_perm _).mem_iff.mp hg)
  by_cases hgt : sumSizes (ttlSurvivors now cfg.ttlMs (getAllFiles fs)) > cfg.maxSizeBytes
  · -- the LRU pass runs
    rcases lruLoop_spec delOk cfg.maxSizeBytes
      (sortByAccess (ttlSurvivors now cfg.ttlMs (getAllFiles fs)))
      (sumSizes (ttlSurvivors now cfg.ttlMs (getAllFiles fs)))
      (ttlLoop delOk now cfg.ttlMs (getAllFiles fs) emptyResult [] fs).1
      (ttlLoop delOk now cfg.ttlMs (getAllFiles fs) emptyResult [] fs).2.2
      h3 hsortmem hsortnodup with ⟨D2, E2, hDs, hDok, hEs, hEok, g1, g2, g3, g4, g5⟩
    have hrc := runCleanup_eq_phases delOk cfg now fs hlen
    rw [h2] at hrc
    rw [if_pos hgt] at hrc
    refine ⟨D2, E2, hDs, hDok, hEs, hEok, ?_, ?_, ?_, ?_, ?_⟩
    · rw [hrc]
      simp only []
      rw [g1, h1]
      simp [emptyResult, sumSizes_eq]
    · rw [hrc]
      exact g3
    · rw [hrc]
      simp only []
      rw [g4, h4, List.filter_filter]
      apply List.filter_congr
      intro g _
      by_cases p1 : g.path ∈
          (ttlDeleted delOk now cfg.ttlMs (getAllFiles fs)).map (fun f => f.path) <;>
        by_cases p2 : g.path ∈ D2.map (fun f => f.path) <;>
        simp [p1, p2, List.mem_append]
    · rcases g5 with g5 | g5
      · left; rw [g2] at g5; omega
      · right; exact g5
    · intro hle
      omega
  · -- the LRU pass is skipped
    have hrc := runCleanup_eq_phases delOk cfg now fs hlen
    rw [h2] at hrc
    rw [if_neg hgt] at hrc
    refine ⟨[], [], List.nil_sublist _, by simp, List.nil_sublist _, by simp, ?_, ?_, ?_, ?_, ?_⟩
    · rw [hrc]
      simp only []
      rw [h1]
      simp [emptyResult, sumSizes]
    · rw [hrc]
      exact h3
    · rw [hrc]
      simp only []
      rw [h4]
      simp
    · left
      have hz : sumSizes ([] : List CachedFile) = 0 := by simp [sumSizes]
      rw [hz]
      omega
    · intro _; exact ⟨rfl, rfl⟩

/-- When every deletion succeeds, the filesystem left by `runCleanup` holds
exactly the Phase-1 survivors minus the LRU deletions, with the accounted
total, and the LRU pass either reached the limit or exhausted the survivors. -/
theorem runCleanup_allOk_scan (delOk : FPath → Bool) (cfg : CleanupConfig) (now : Int)
    (fs : Option FSNode) (hwf : wfOpt fs = true) (hall : ∀ p, delOk p = true)
    (hne : getAllFiles fs ≠ []) :
    ∃ D2 : List CachedFile,
      List.Sublist D2 (sortByAccess (ttlSurvivors now cfg.ttlMs (getAllFiles fs))) ∧
      wfOpt (runCleanup delOk cfg now fs).2 = true ∧
      getAllFiles (runCleanup delOk cfg now fs).2 =
        (ttlSurvivors now cfg.ttlMs (getAllFiles fs)).filter
          (fun g => !decide (g.path ∈ D2.map (fun f => f.path))) ∧
      sumSizes (getAllFiles (runCleanup delOk cfg now fs).2) =
        sumSizes (ttlSurvivors now cfg.ttlMs (getAllFiles fs)) - sumSizes D2 ∧
      (sumSizes (ttlSurvivors now cfg.ttlMs (getAllFiles fs)) - sumSizes D2 ≤
          cfg.maxSizeBytes ∨
        (∀ f ∈ ttlSurvivors now cfg.ttlMs (getAllFiles fs), f ∈ D2)) := by
  have hnd := getAllFiles_paths_nodup fs hwf
  rcases runCleanup_spec delOk cfg now fs hwf hne with
    ⟨D2, E2, hDs, hDok, hEs, hEok, hres, hwf', hscan, hdisj, hskip⟩
  have hE2 : E2 = [] := by
    rw [List.eq_nil_iff_forall_not_mem]
    intro f hf
    have h1 := hEok f hf
    have h2 := hall f.path
    rw [h1] at h2
    exact Bool.false_ne_true h2
  subst hE2
  have hSperm := sortByAccess_perm (ttlSurvivors now cfg.ttlMs (getAllFiles fs))
  have hD2S : ∀ f ∈ D2, f ∈ ttlSurvivors now cfg.ttlMs (getAllFiles fs) :=
    fun f hf => hSperm.mem_iff.mp (hDs.subset hf)
  have hSnodup : ((ttlSurvivors now cfg.ttlMs (getAllFiles fs)).map (fun f => f.path)).Nodup :=
    List.Nodup.sublist (List.Sublist.map _ (List.filter_sublist _)) hnd
  have hD2nodup : (D2.map (fun f => f.path)).Nodup :=
    List.Nodup.sublist (List.Sublist.map _ hDs)
      (((sortByAccess_perm _).map _).nodup_iff.mpr hSnodup)
  have hscan2 : getAllFiles (runCleanup delOk cfg now fs).2 =
      (ttlSurvivors now cfg.ttlMs (getAllFiles fs)).filter
        (fun g => !decide (g.path ∈ D2.map (fun f => f.path))) := by
    rw [hscan]
    have hstep1 : (getAllFiles fs).filter (fun g =>
        !decide (g.path ∈
          (ttlDeleted delOk now cfg.ttlMs (getAllFiles fs)).map (fun f => f.path) ++
          D2.map (fun f => f.path))) =
        (getAllFiles fs).filter (fun g =>
          !decide (g.path ∈ D2.map (fun f => f.path)) && !expiredB now cfg.ttlMs g) := by
      apply List.filter_congr
      intro g hg
      by_cases hex : expiredB now cfg.ttlMs g = true
      · have hgD1 : g.path ∈
            (ttlDeleted delOk now cfg.ttlMs (getAllFiles fs)).map (fun f => f.path) := by
          apply List.mem_map_of_mem
          exact List.mem_filter.mpr ⟨hg, by rw [hex, hall g.path]; rfl⟩
        simp [hgD1, hex]
      · have hgD1 : g.path ∉
            (ttlDeleted delOk now cfg.ttlMs (getAllFiles fs)).map (fun f => f.path) := by
          intro hc
          rcases List.mem_map.mp hc with ⟨d, hd, hdp⟩
          rcases List.mem_filter.mp hd with ⟨hdf, hdcond⟩
          have : d = g := path_inj hnd hdf hg hdp
          subst this
          rw [Bool.and_eq_true] at hdcond
          exact hex hdcond.1
        by_cases hD2 : g.path ∈ D2.map (fun f => f.path) <;>
          simp [hgD1, hD2, hex]
    rw [hstep1, ttlSurvivors, List.filter_filter]
  refine ⟨D2, hDs, hwf', hscan2, ?_, ?_⟩
  · rw [hscan2]
    exact sumSizes_filter_not_paths D2 _ hD2S hD2nodup hSnodup
  · rcases hdisj with h | h
    · left; exact h
    · right
      intro f hf
      rcases h f (hSperm.mem_iff.mpr hf) with h1 | h1
      · exact h1
      · simp at h1

/-- The LRU pass of `runCleanup` attempts exactly a prefix of the sorted
Phase-1 survivors: each attempted file is reported deleted or errored with
phase `lru`, and the loop stops before exhausting the candidates only once
the remaining total is within the limit. -/
theorem runCleanup_attempts (delOk : FPath → Bool) (cfg : CleanupConfig) (now : Int)
    (fs : Option FSNode) (hwf : wfOpt fs = true) (hne : getAllFiles fs ≠ []) :
    ∃ n : Nat,
      (∀ f ∈ (sortByAccess (ttlSurvivors now cfg.ttlMs (getAllFiles fs))).take n,
        (delOk f.path = false →
          (DelPhase.lru, f.path) ∈ (runCleanup delOk cfg now fs).1.errors) ∧
        (delOk f.path = true →
          f.path ∈ (runCleanup delOk cfg now fs).1.lruFiles)) ∧
      (n = (sortByAccess (ttlSurvivors now cfg.ttlMs (getAllFiles fs))).length ∨
        sumSizes (ttlSurvivors now cfg.ttlMs (getAllFiles fs)) -
          sumSizes (((sortByAccess (ttlSurvivors now cfg.ttlMs (getAllFiles fs))).take n).filter
            (fun f => delOk f.path)) ≤ cfg.maxSizeBytes) := by
  have hlen : (getAllFiles fs).length ≠ 0 := by
    intro h
    exact hne (List.length_eq_zero.mp h)
  have hnd := getAllFiles_paths_nodup fs hwf
  rcases ttlLoop_spec delOk now cfg.ttlMs (getAllFiles fs) emptyResult [] fs hwf
    (fun f hf => hf) hnd with ⟨h1, h2, h3, h4⟩
  rw [List.nil_append] at h2
  have hSmem : ∀ g ∈ ttlSurvivors now cfg.ttlMs (getAllFiles fs),
      g ∈ getAllFiles (ttlLoop delOk now cfg.ttlMs (getAllFiles fs) emptyResult [] fs).2.2 := by
    intro g hg
    rw [h4]
    rcases List.mem_filter.mp hg with ⟨hgf, hgne⟩
    refine List.mem_filter.mpr ⟨hgf, ?_⟩
    simp only [Bool.not_eq_eq_eq_not, Bool.not_true, decide_eq_false_iff_not]
    intro hc
    rcases List.mem_map.mp hc with ⟨d, hd, hdp⟩
    rcases List.mem_filter.mp hd with ⟨hdf, hdexp⟩
    have : d = g := path_inj hnd hdf hgf hdp
    subst this
    rw [Bool.and_eq_true] at hdexp
    rw [hdexp.1] at hgne
    simp at hgne
  have hSnodup : ((ttlSurvivors now cfg.ttlMs (getAllFiles fs)).map (fun f => f.path)).Nodup :=
    List.Nodup.sublist (List.Sublist.map _ (List.filter_sublist _)) hnd
  have hsortnodup :
      ((sortByAccess (ttlSurvivors now cfg.ttlMs (getAllFiles fs))).map
        (fun f => f.path)).Nodup :=
    ((sortByAccess_perm _).map _).nodup_iff.mpr hSnodup
  have hsortmem : ∀ g ∈ sortByAccess (ttlSurvivors now cfg.ttlMs (getAllFiles fs)),
      g ∈ getAllFiles (ttlLoop delOk now cfg.ttlMs (getAllFiles fs) emptyResult [] fs).2.2 :=
    fun g hg => hSmem g ((sortByAccess_perm _).mem_iff.mp hg)
  by_cases hgt : sumSizes (ttlSurvivors now cfg.ttlMs (getAllFiles fs)) > cfg.maxSizeBytes
  · rcases lruLoop_attempts delOk cfg.maxSizeBytes
      (sortByAccess (ttlSurvivors now cfg.ttlMs (getAllFiles fs)))
      (sumSizes (ttlSurvivors now cfg.ttlMs (getAllFiles fs)))
      (ttlLoop delOk now cfg.ttlMs (getAllFiles fs) emptyResult [] fs).1
      (ttlLoop delOk now cfg.ttlMs (getAllFiles fs) emptyResult [] fs).2.2
      h3 hsortmem hsortnodup with ⟨n, a1, a2, a3, a4⟩
    have hrc := runCleanup_eq_phases delOk cfg now fs hlen
    rw [h2] at hrc
    rw [if_pos hgt] at hrc
    refine ⟨n, ?_, ?_⟩
    · intro f hf
      constructor
      · intro hd
        rw [hrc]
        simp only []
        rw [a1]
        refine List.mem_append.mpr (Or.inr (List.mem_map_of_mem _ ?_))
        refine List.mem_filter.mpr ⟨hf, ?_⟩
        rw [hd]
        rfl
      · intro hd
        rw [hrc]
        simp only []
        rw [a2]
        refine List.mem_append.mpr (Or.inr ?_)
        exact List.mem_map_of_mem _ (List.mem_filter.mpr ⟨hf, hd⟩)
    · rcases a4 with a4 | a4
      · left; exact a4
      · right
        rw [a3] at a4
        exact a4
  · have hrc := runCleanup_eq_phases delOk cfg now fs hlen
    rw [h2] at hrc
    rw [if_neg hgt] at hrc
    refine ⟨0, ?_, Or.inr ?_⟩
    · intro f hf
      simp at hf
    · have hz : sumSizes (((sortByAccess
          (ttlSurvivors now cfg.ttlMs (getAllFiles fs))).take 0).filter
            (fun f => delOk f.path)) = 0 := by
        simp [sumSizes]
      rw [hz]
      omega

theorem sumSizes_filter_or_disjoint (l : List CachedFile) (p q : CachedFile → Bool)
    (h : ∀ f ∈ l, ¬(p f = true ∧ q f = true)) :
    sumSizes (l.filter (fun f => p f || q f)) =
      sumSizes (l.filter p) + sumSizes (l.filter q) := by
  induction l with
  | nil => simp [sumSizes]
  | cons f rest ih =>
    have hrest := ih (fun g hg => h g (by simp [hg]))
    have hf := h f (by simp)
    by_cases hp : p f = true
    · have hq : q f = false := by
        rw [Bool.eq_false_iff]
        intro hq
        exact hf ⟨hp, hq⟩
      simp only [List.filter_cons, hp, hq, Bool.true_or, if_true]
      simp only [Bool.false_eq_true, if_false, sumSizes_cons, hrest]
      omega
    · rw [Bool.not_eq_true] at hp
      by_cases hq : q f = true
      · simp only [List.filter_cons, hp, hq, Bool.false_or, if_true]
        simp only [Bool.false_eq_true, if_false, sumSizes_cons, hrest]
        omega
      · rw [Bool.not_eq_true] at hq
        simp only [List.filter_cons, hp, hq, Bool.false_or]
        simp only [Bool.false_eq_true, if_false, hrest]

theorem getCacheStats_empty (fs : Option FSNode) (now : Int) (h : getAllFiles fs = []) :
    getCacheStats fs now =
      { totalFiles := 0, totalSizeBytes := 0, totalSizeGb := 0
        oldestFile := none, newestFile := none } := by
  simp [getCacheStats, h]

/-! ### Claim theorems -/

/-- **C8**: a missing (`none`), unreadable, or empty cache root scans to an
empty inventory; on an empty inventory `runCleanup` reports zero deletions
with an empty error list and leaves the filesystem untouched, and
`getCacheStats` returns all-zero statistics with `none` extremes. -/
theorem empty_cache_is_noop :
    getAllFiles none = [] ∧
    (∀ es, getAllFiles (some (.dir false es)) = []) ∧
    getAllFiles (some (.dir true [])) = [] ∧
    (∀ (delOk : FPath → Bool) (cfg : CleanupConfig) (now : Int) (fs : Option FSNode),
      getAllFiles fs = [] →
      runCleanup delOk cfg now fs =
        ({ filesDeleted := 0, bytesFreed := 0, expiredFiles := [], lruFiles := []
           errors := [] }, fs) ∧
      getCacheStats fs now =
        { totalFiles := 0, totalSizeBytes := 0, totalSizeGb := 0
          oldestFile := none, newestFile := none }) := by
  refine ⟨rfl, fun es => rfl, rfl, ?_⟩
  intro delOk cfg now fs h
  exact ⟨runCleanup_empty delOk cfg now fs h, getCacheStats_empty fs now h⟩

theorem empty_cache_is_noop_witness :
    getAllFiles (none : Option FSNode) = [] ∧
    runCleanup (fun _ => true) ⟨100, 100⟩ 0 none =
      ({ filesDeleted := 0, bytesFreed := 0, expiredFiles := [], lruFiles := []
         errors := [] }, none) ∧
    getCacheStats none 0 =
      { totalFiles := 0, totalSizeBytes := 0, totalSizeGb := 0
        oldestFile := none, newestFile := none } :=
  ⟨rfl, (empty_cache_is_noop.2.2.2 (fun _ => true) ⟨100, 100⟩ 0 none rfl).1,
    (empty_cache_is_noop.2.2.2 (fun _ => true) ⟨100, 100⟩ 0 none rfl).2⟩

/-- **C2**: assuming every deletion succeeds, after `runCleanup` either the
total size of the remaining files is at most `maxSizeBytes`, or no file
remains (the LRU candidate set was exhausted). -/
theorem runCleanup_size_bound (delOk : FPath → Bool) (cfg : CleanupConfig) (now : Int)
    (fs : Option FSNode) (hwf : wfOpt fs = true) (hall : ∀ p, delOk p = true) :
    sumSizes (getAllFiles (runCleanup delOk cfg now fs).2) ≤ cfg.maxSizeBytes ∨
    getAllFiles (runCleanup delOk cfg now fs).2 = [] := by
  by_cases hne : getAllFiles fs = []
  · right
    rw [runCleanup_empty delOk cfg now fs hne]
    exact hne
  · rcases runCleanup_allOk_scan delOk cfg now fs hwf hall hne with
      ⟨D2, hDs, hwf', hscan, hsum, hdisj⟩
    rcases hdisj with h | h
    · left; rw [hsum]; exact h
    · right
      rw [hscan, List.eq_nil_iff_forall_not_mem]
      intro f hf
      rcases List.mem_filter.mp hf with ⟨hfS, hfD⟩
      simp only [Bool.not_eq_eq_eq_not, Bool.not_true, decide_eq_false_iff_not] at hfD
      exact hfD (List.mem_map_of_mem _ (h f hfS))

theorem runCleanup_size_bound_witness :
    wfOpt (some (.dir true [("a", .file true 100 0 0), ("b", .file true 60 1 0)])) = true ∧
    (sumSizes (getAllFiles (runCleanup (fun _ => true) ⟨150, 1000000⟩ 5
        (some (.dir true [("a", .file true 100 0 0), ("b", .file true 60 1 0)]))).2) ≤ 150 ∨
      getAllFiles (runCleanup (fun _ => true) ⟨150, 1000000⟩ 5
        (some (.dir true [("a", .file true 100 0 0), ("b", .file true 60 1 0)]))).2 = []) :=
  ⟨by decide,
    runCleanup_size_bound (fun _ => true) ⟨150, 1000000⟩ 5
      (some (.dir true [("a", .file true 100 0 0), ("b", .file true 60 1 0)]))
      (by decide) (fun _ => rfl)⟩

/-- **C3** (code bug): `runCleanup` invokes
`cleanEmptyDirs(cacheDirectory, cacheDirectory)`, whose very first guard
`dir === rootDir` makes the sweep return immediately, so no empty directory
is ever removed.  Concretely: a cache holding only `sub/old`, whose single
file is expired and deleted, ends the run with the now-empty directory `sub`
still present (its `readdir` yields `some []`). -/
theorem cleanup_leaves_empty_directory :
    (runCleanup (fun _ => true) ⟨1000000, 1000⟩ 5000
        (some (.dir true [("sub", .dir true [("old", .file true 100 0 0)])]))).1.expiredFiles =
      [["sub", "old"]] ∧
    readdirNames
      (runCleanup (fun _ => true) ⟨1000000, 1000⟩ 5000
        (some (.dir true [("sub", .dir true [("old", .file true 100 0 0)])]))).2
      ["sub"] = some [] := by
  decide

/-- **C4** (counterexample): with `maxSizeBytes = 0`, a zero-size survivor is
not deleted — `currentSize` is `0`, the `currentSize > maxSizeBytes` guard
fails, the LRU pass never runs, and the file remains. -/
theorem maxZero_zero_size_file_survives :
    (runCleanup (fun _ => true) ⟨0, 1000000⟩ 100
        (some (.dir true [("a", .file true 0 3 50)]))).1.filesDeleted = 0 ∧
    getAllFiles (runCleanup (fun _ => true) ⟨0, 1000000⟩ 100
        (some (.dir true [("a", .file true 0 3 50)]))).2 =
      [{ path := ["a"], size := 0, accessTime := 3, modTime := 50 }] := by
  decide

/-- **C4** (amended): with `maxSizeBytes = 0` and every deletion succeeding,
every Phase-1 survivor of positive size is deleted: any file still present
after `runCleanup` has size `0`. -/
theorem runCleanup_maxZero_only_zero_size_remain (delOk : FPath → Bool)
    (cfg : CleanupConfig) (now : Int) (fs : Option FSNode)
    (hwf : wfOpt fs = true) (hall : ∀ p, delOk p = true)
    (hmax : cfg.maxSizeBytes = 0)
    (hpos : ∀ f ∈ getAllFiles fs, 0 ≤ f.size) :
    ∀ f ∈ getAllFiles (runCleanup delOk cfg now fs).2, f.size = 0 := by
  by_cases hne : getAllFiles fs = []
  · rw [runCleanup_empty delOk cfg now fs hne, hne]
    intro f hf
    simp at hf
  · rcases runCleanup_allOk_scan delOk cfg now fs hwf hall hne with
      ⟨D2, hDs, hwf', hscan, hsum, hdisj⟩
    have hsub : ∀ f ∈ getAllFiles (runCleanup delOk cfg now fs).2, f ∈ getAllFiles fs := by
      intro f hf
      rw [hscan] at hf
      exact (List.mem_filter.mp (List.mem_filter.mp hf).1).1
    rcases hdisj with h | h
    · exact sumSizes_nonpos_all_zero (fun f hf => hpos f (hsub f hf)) (by rw [hsum]; omega)
    · intro f hf
      exfalso
      rw [hscan] at hf
      rcases List.mem_filter.mp hf with ⟨hfS, hfD⟩
      simp only [Bool.not_eq_eq_eq_not, Bool.not_true, decide_eq_false_iff_not] at hfD
      exact hfD (List.mem_map_of_mem _ (h f hfS))

theorem runCleanup_maxZero_only_zero_size_remain_witness :
    wfOpt (some (.dir true [("a", .file true 7 0 0), ("b", .file true 0 1 0)])) = true ∧
    (0 : Int) ≤ 0 ∧
    (∀ f ∈ getAllFiles (some (.dir true [("a", .file true 7 0 0), ("b", .file true 0 1 0)])),
      0 ≤ f.size) ∧
    (∀ f ∈ getAllFiles (runCleanup (fun _ => true) ⟨0, 1000000⟩ 5
        (some (.dir true [("a", .file true 7 0 0), ("b", .file true 0 1 0)]))).2,
      f.size = 0) :=
  ⟨by decide, by decide, by decide,
    runCleanup_maxZero_only_zero_size_remain (fun _ => true) ⟨0, 1000000⟩ 5
      (some (.dir true [("a", .file true 7 0 0), ("b", .file true 0 1 0)]))
      (by decide) (fun _ => rfl) rfl (by decide)⟩

/-- **C1**: an inventory file with `age = now - modTime > ttlMs` is processed
by the TTL pass — on deletion success its path is appended to
`expiredFiles` and the file is gone from the final filesystem — while a file
with `age ≤ ttlMs` survives Phase 1: it is kept in `remainingFiles` and never
listed as expired. -/
theorem runCleanup_ttl_correct (delOk : FPath → Bool) (cfg : CleanupConfig) (now : Int)
    (fs : Option FSNode) (hwf : wfOpt fs = true) :
    ∀ f ∈ getAllFiles fs,
      (now - f.modTime > cfg.ttlMs →
        (delOk f.path = true →
          f.path ∈ (runCleanup delOk cfg now fs).1.expiredFiles ∧
          f.path ∉ (getAllFiles (runCleanup delOk cfg now fs).2).map (fun g => g.path)) ∧
        (delOk f.path = false →
          (DelPhase.ttl, f.path) ∈ (runCleanup delOk cfg now fs).1.errors)) ∧
      (now - f.modTime ≤ cfg.ttlMs →
        f ∈ (ttlLoop delOk now cfg.ttlMs (getAllFiles fs) emptyResult [] fs).2.1 ∧
        f.path ∉ (runCleanup delOk cfg now fs).1.expiredFiles) := by
  intro f hf
  have hne : getAllFiles fs ≠ [] := List.ne_nil_of_mem hf
  have hnd := getAllFiles_paths_nodup fs hwf
  rcases runCleanup_spec delOk cfg now fs hwf hne with
    ⟨D2, E2, hDs, hDok, hEs, hEok, hres, hwf', hscan, hdisj, hskip⟩
  rcases ttlLoop_spec delOk now cfg.ttlMs (getAllFiles fs) emptyResult [] fs hwf
    (fun g hg => hg) hnd with ⟨t1, t2, t3, t4⟩
  refine ⟨?_, ?_⟩
  · intro hexp
    refine ⟨?_, ?_⟩
    · intro hd
      have hfD1 : f ∈ ttlDeleted delOk now cfg.ttlMs (getAllFiles fs) :=
        List.mem_filter.mpr ⟨hf, by simp [expiredB, hexp, hd]⟩
      constructor
      · rw [hres]
        exact List.mem_map_of_mem _ hfD1
      · rw [hscan]
        intro hc
        rcases List.mem_map.mp hc with ⟨g, hg, hgp⟩
        rcases List.mem_filter.mp hg with ⟨hgf, hgpred⟩
        simp only [Bool.not_eq_eq_eq_not, Bool.not_true, decide_eq_false_iff_not] at hgpred
        apply hgpred
        rw [hgp]
        exact List.mem_append.mpr (Or.inl (List.mem_map_of_mem _ hfD1))
    · intro hd
      have hfE1 : f ∈ ttlFailed delOk now cfg.ttlMs (getAllFiles fs) :=
        List.mem_filter.mpr ⟨hf, by simp [expiredB, hexp, hd]⟩
      rw [hres]
      exact List.mem_append.mpr (Or.inl (List.mem_map_of_mem _ hfE1))
  · intro hexp
    have hfS : f ∈ ttlSurvivors now cfg.ttlMs (getAllFiles fs) := by
      refine List.mem_filter.mpr ⟨hf, ?_⟩
      simp only [expiredB, Bool.not_eq_eq_eq_not, Bool.not_true, decide_eq_false_iff_not]
      omega
    constructor
    · rw [t2]
      simpa using hfS
    · rw [hres]
      intro hc
      rcases List.mem_map.mp hc with ⟨d, hd, hdp⟩
      rcases List.mem_filter.mp hd with ⟨hdf, hdpred⟩
      have hdf2 : d = f := path_inj hnd hdf hf hdp
      subst hdf2
      rw [Bool.and_eq_true] at hdpred
      simp only [expiredB, decide_eq_true_eq] at hdpred
      omega

theorem runCleanup_ttl_correct_witness :
    wfOpt (some (.dir true [("old", .file true 100 0 0), ("new", .file true 50 1 900)])) = true ∧
    ({ path := ["old"], size := 100, accessTime := 0, modTime := 0 } : CachedFile) ∈
      getAllFiles (some (.dir true [("old", .file true 100 0 0), ("new", .file true 50 1 900)])) ∧
    (1000 - (0 : Int) > 500 →
      ((fun _ => true : FPath → Bool) ["old"] = true →
        (["old"] : FPath) ∈ (runCleanup (fun _ => true) ⟨10000, 500⟩ 1000
          (some (.dir true [("old", .file true 100 0 0),
            ("new", .file true 50 1 900)]))).1.expiredFiles ∧
        (["old"] : FPath) ∉ (getAllFiles (runCleanup (fun _ => true) ⟨10000, 500⟩ 1000
          (some (.dir true [("old", .file true 100 0 0),
            ("new", .file true 50 1 900)]))).2).map (fun g => g.path)) ∧
      ((fun _ => true : FPath → Bool) ["old"] = false →
        (DelPhase.ttl, (["old"] : FPath)) ∈ (runCleanup (fun _ => true) ⟨10000, 500⟩ 1000
          (some (.dir true [("old", .file true 100 0 0),
            ("new", .file true 50 1 900)]))).1.errors)) ∧
    (1000 - (0 : Int) ≤ 500 →
      ({ path := ["old"], size := 100, accessTime := 0, modTime := 0 } : CachedFile) ∈
        (ttlLoop (fun _ => true) 1000 500
          (getAllFiles (some (.dir true [("old", .file true 100 0 0),
            ("new", .file true 50 1 900)]))) emptyResult []
          (some (.dir true [("old", .file true 100 0 0), ("new", .file true 50 1 900)]))).2.1 ∧
      (["old"] : FPath) ∉ (runCleanup (fun _ => true) ⟨10000, 500⟩ 1000
        (some (.dir true [("old", .file true 100 0 0),
          ("new", .file true 50 1 900)]))).1.expiredFiles) :=
  ⟨by decide, by decide,
    (runCleanup_ttl_correct (fun _ => true) ⟨10000, 500⟩ 1000
      (some (.dir true [("old", .file true 100 0 0), ("new", .file true 50 1 900)]))
      (by decide) { path := ["old"], size := 100, accessTime := 0, modTime := 0 }
      (by decide)).1,
    (runCleanup_ttl_correct (fun _ => true) ⟨10000, 500⟩ 1000
      (some (.dir true [("old", .file true 100 0 0), ("new", .file true 50 1 900)]))
      (by decide) { path := ["old"], size := 100, accessTime := 0, modTime := 0 }
      (by decide)).2⟩

/-- **C7**: each failed deletion, in either phase, is caught and recorded —
an expired file whose unlink fails yields a `(ttl, path)` error entry and is
not reported expired; failures do not stop later deletions (every expired
deletable file still lands in `expiredFiles`); the LRU pass attempts a
prefix of the sorted survivors in which every failure yields an
`(lru, path)` error entry and every success is listed, stopping before the
end only once the remaining total is within the limit (so an LRU failure
never aborts the pass); and every error entry names a scanned file whose
deletion was refused, tagged with the phase that attempted it.  `runCleanup`
is a total function, so per-file failures never escape it. -/
theorem runCleanup_error_handling (delOk : FPath → Bool) (cfg : CleanupConfig) (now : Int)
    (fs : Option FSNode) (hwf : wfOpt fs = true) :
    (∀ f ∈ getAllFiles fs, now - f.modTime > cfg.ttlMs → delOk f.path = false →
      (DelPhase.ttl, f.path) ∈ (runCleanup delOk cfg now fs).1.errors ∧
      f.path ∉ (runCleanup delOk cfg now fs).1.expiredFiles) ∧
    (∀ f ∈ getAllFiles fs, now - f.modTime > cfg.ttlMs → delOk f.path = true →
      f.path ∈ (runCleanup delOk cfg now fs).1.expiredFiles) ∧
    (∃ n : Nat,
      (∀ f ∈ (sortByAccess (ttlSurvivors now cfg.ttlMs (getAllFiles fs))).take n,
        (delOk f.path = false →
          (DelPhase.lru, f.path) ∈ (runCleanup delOk cfg now fs).1.errors) ∧
        (delOk f.path = true →
          f.path ∈ (runCleanup delOk cfg now fs).1.lruFiles)) ∧
      (n = (sortByAccess (ttlSurvivors now cfg.ttlMs (getAllFiles fs))).length ∨
        sumSizes (ttlSurvivors now cfg.ttlMs (getAllFiles fs)) -
          sumSizes (((sortByAccess (ttlSurvivors now cfg.ttlMs (getAllFiles fs))).take n).filter
            (fun f => delOk f.path)) ≤ cfg.maxSizeBytes)) ∧
    (∀ e ∈ (runCleanup delOk cfg now fs).1.errors,
      delOk e.2 = false ∧
      ∃ f ∈ getAllFiles fs, f.path = e.2 ∧
        (e.1 = DelPhase.ttl → now - f.modTime > cfg.ttlMs) ∧
        (e.1 = DelPhase.lru → now - f.modTime ≤ cfg.ttlMs)) := by
  by_cases hne : getAllFiles fs = []
  · rw [runCleanup_empty delOk cfg now fs hne]
    refine ⟨?_, ?_, ⟨0, ?_, Or.inl ?_⟩, ?_⟩
    · intro f hf
      rw [hne] at hf
      simp at hf
    · intro f hf
      rw [hne] at hf
      simp at hf
    · intro f hf
      simp at hf
    · rw [hne]
      simp [ttlSurvivors, sortByAccess]
    · intro e he
      simp [emptyResult] at he
  · have hnd := getAllFiles_paths_nodup fs hwf
    rcases runCleanup_spec delOk cfg now fs hwf hne with
      ⟨D2, E2, hDs, hDok, hEs, hEok, hres, hwf', hscan, hdisj, hskip⟩
    refine ⟨?_, ?_, runCleanup_attempts delOk cfg now fs hwf hne, ?_⟩
    · intro f hf hexp hd
      have hfE1 : f ∈ ttlFailed delOk now cfg.ttlMs (getAllFiles fs) :=
        List.mem_filter.mpr ⟨hf, by simp [expiredB, hexp, hd]⟩
      constructor
      · rw [hres]
        exact List.mem_append.mpr (Or.inl (List.mem_map_of_mem _ hfE1))
      · rw [hres]
        intro hc
        rcases List.mem_map.mp hc with ⟨d, hdm, hdp⟩
        rcases List.mem_filter.mp hdm with ⟨hdf, hdpred⟩
        have hdf2 : d = f := path_inj hnd hdf hf hdp
        subst hdf2
        rw [Bool.and_eq_true] at hdpred
        rw [hdpred.2] at hd
        exact Bool.noConfusion hd
    · intro f hf hexp hd
      have hfD1 : f ∈ ttlDeleted delOk now cfg.ttlMs (getAllFiles fs) :=
        List.mem_filter.mpr ⟨hf, by simp [expiredB, hexp, hd]⟩
      rw [hres]
      exact List.mem_map_of_mem _ hfD1
    · intro e he
      rw [hres] at he
      rcases List.mem_append.mp he with he | he
      · rcases List.mem_map.mp he with ⟨g, hg, hge⟩
        rcases List.mem_filter.mp hg with ⟨hgf, hgpred⟩
        rw [Bool.and_eq_true, Bool.not_eq_true'] at hgpred
        subst hge
        refine ⟨hgpred.2, g, hgf, rfl, ?_, ?_⟩
        · intro _
          simpa [expiredB] using hgpred.1
        · intro h
          simp at h
      · rcases List.mem_map.mp he with ⟨g, hg, hge⟩
        have hgS : g ∈ ttlSurvivors now cfg.ttlMs (getAllFiles fs) :=
          (sortByAccess_perm _).mem_iff.mp (hEs.subset hg)
        rcases List.mem_filter.mp hgS with ⟨hgf, hgpred⟩
        subst hge
        refine ⟨hEok g hg, g, hgf, rfl, ?_, ?_⟩
        · intro h
          simp at h
        · intro _
          simp only [expiredB, Bool.not_eq_eq_eq_not, Bool.not_true,
            decide_eq_false_iff_not] at hgpred
          omega

theorem runCleanup_error_handling_witness :
    wfOpt (some (.dir true [("old", .file true 100 0 0), ("Bf", .file true 100 30 900),
        ("Cf", .file true 100 10 900)])) = true ∧
    (∃ n : Nat,
      (∀ f ∈ (sortByAccess (ttlSurvivors 1000 500 (getAllFiles
          (some (.dir true [("old", .file true 100 0 0), ("Bf", .file true 100 30 900),
            ("Cf", .file true 100 10 900)]))))).take n,
        ((fun p => !(p = ["Cf"] : Bool)) f.path = false →
          (DelPhase.lru, f.path) ∈ (runCleanup (fun p => !(p = ["Cf"] : Bool)) ⟨150, 500⟩ 1000
            (some (.dir true [("old", .file true 100 0 0), ("Bf", .file true 100 30 900),
              ("Cf", .file true 100 10 900)]))).1.errors) ∧
        ((fun p => !(p = ["Cf"] : Bool)) f.path = true →
          f.path ∈ (runCleanup (fun p => !(p = ["Cf"] : Bool)) ⟨150, 500⟩ 1000
            (some (.dir true [("old", .file true 100 0 0), ("Bf", .file true 100 30 900),
              ("Cf", .file true 100 10 900)]))).1.lruFiles)) ∧
      (n = (sortByAccess (ttlSurvivors 1000 500 (getAllFiles
          (some (.dir true [("old", .file true 100 0 0), ("Bf", .file true 100 30 900),
            ("Cf", .file true 100 10 900)]))))).length ∨
        sumSizes (ttlSurvivors 1000 500 (getAllFiles
          (some (.dir true [("old", .file true 100 0 0), ("Bf", .file true 100 30 900),
            ("Cf", .file true 100 10 900)])))) -
          sumSizes (((sortByAccess (ttlSurvivors 1000 500 (getAllFiles
            (some (.dir true [("old", .file true 100 0 0), ("Bf", .file true 100 30 900),
              ("Cf", .file true 100 10 900)]))))).take n).filter
            (fun f => (fun p => !(p = ["Cf"] : Bool)) f.path)) ≤ 150)) :=
  ⟨by decide,
    (runCleanup_error_handling (fun p => !(p = ["Cf"] : Bool)) ⟨150, 500⟩ 1000
      (some (.dir true [("old", .file true 100 0 0), ("Bf", .file true 100 30 900),
        ("Cf", .file true 100 10 900)]))
      (by decide)).2.2.1⟩

/-- **C5**: the LRU deletions happen in non-decreasing `accessTime` order:
the `lruFiles` list is pairwise ordered by the access times of the scanned
files bearing those paths. -/
theorem runCleanup_lru_order (delOk : FPath → Bool) (cfg : CleanupConfig) (now : Int)
    (fs : Option FSNode) (hwf : wfOpt fs = true) :
    ((runCleanup delOk cfg now fs).1.lruFiles).Pairwise (fun p q =>
      ∀ f g, f ∈ getAllFiles fs → g ∈ getAllFiles fs →
        f.path = p → g.path = q → f.accessTime ≤ g.accessTime) := by
  by_cases hne : getAllFiles fs = []
  · rw [runCleanup_empty delOk cfg now fs hne]
    exact List.Pairwise.nil
  · have hnd := getAllFiles_paths_nodup fs hwf
    rcases runCleanup_spec delOk cfg now fs hwf hne with
      ⟨D2, E2, hDs, hDok, hEs, hEok, hres, hwf', hscan, hdisj, hskip⟩
    rw [hres]
    have hD2sub : ∀ a ∈ D2, a ∈ getAllFiles fs := fun a ha =>
      (List.mem_filter.mp ((sortByAccess_perm _).mem_iff.mp (hDs.subset ha))).1
    have hpairD2 : D2.Pairwise (fun a b => a.accessTime ≤ b.accessTime) :=
      List.Pairwise.sublist hDs (sortByAccess_sorted _)
    rw [List.pairwise_map]
    refine List.Pairwise.imp_of_mem ?_ hpairD2
    intro a b ha hb hab
    intro f g hfm hgm hfp hgp
    have hfa : f = a := path_inj hnd hfm (hD2sub a ha) hfp
    have hgb : g = b := path_inj hnd hgm (hD2sub b hb) hgp
    rw [hfa, hgb]
    exact hab

theorem runCleanup_lru_order_witness :
    wfOpt (some (.dir true [("A", .file true 100 20 0), ("B", .file true 100 30 0),
      ("C", .file true 100 10 0)])) = true ∧
    ((runCleanup (fun _ => true) ⟨150, 1000000⟩ 5
      (some (.dir true [("A", .file true 100 20 0), ("B", .file true 100 30 0),
        ("C", .file true 100 10 0)]))).1.lruFiles).Pairwise (fun p q =>
      ∀ f g, f ∈ getAllFiles (some (.dir true [("A", .file true 100 20 0),
          ("B", .file true 100 30 0), ("C", .file true 100 10 0)])) →
        g ∈ getAllFiles (some (.dir true [("A", .file true 100 20 0),
          ("B", .file true 100 30 0), ("C", .file true 100 10 0)])) →
        f.path = p → g.path = q → f.accessTime ≤ g.accessTime) :=
  ⟨by decide,
    runCleanup_lru_order (fun _ => true) ⟨150, 1000000⟩ 5
      (some (.dir true [("A", .file true 100 20 0), ("B", .file true 100 30 0),
        ("C", .file true 100 10 0)])) (by decide)⟩

/-- **C10**: in every report, `filesDeleted` is the number of listed paths,
`bytesFreed` is the total recorded size of exactly the files listed in
`expiredFiles` and `lruFiles`, and no path is listed in both. -/
theorem runCleanup_report_consistent (delOk : FPath → Bool) (cfg : CleanupConfig)
    (now : Int) (fs : Option FSNode) (hwf : wfOpt fs = true) :
    (runCleanup delOk cfg now fs).1.filesDeleted =
      (runCleanup delOk cfg now fs).1.expiredFiles.length +
      (runCleanup delOk cfg now fs).1.lruFiles.length ∧
    (runCleanup delOk cfg now fs).1.bytesFreed =
      sumSizes ((getAllFiles fs).filter (fun f =>
        decide (f.path ∈ (runCleanup delOk cfg now fs).1.expiredFiles) ||
        decide (f.path ∈ (runCleanup delOk cfg now fs).1.lruFiles))) ∧
    (∀ p ∈ (runCleanup delOk cfg now fs).1.expiredFiles,
      p ∉ (runCleanup delOk cfg now fs).1.lruFiles) := by
  by_cases hne : getAllFiles fs = []
  · rw [runCleanup_empty delOk cfg now fs hne, hne]
    refine ⟨rfl, by simp [emptyResult, sumSizes], ?_⟩
    intro p hp
    simp [emptyResult] at hp
  · have hnd := getAllFiles_paths_nodup fs hwf
    rcases runCleanup_spec delOk cfg now fs hwf hne with
      ⟨D2, E2, hDs, hDok, hEs, hEok, hres, hwf', hscan, hdisj, hskip⟩
    have hD1sub : ∀ a ∈ ttlDeleted delOk now cfg.ttlMs (getAllFiles fs),
        a ∈ getAllFiles fs := fun a ha => (List.mem_filter.mp ha).1
    have hD2sub : ∀ a ∈ D2, a ∈ getAllFiles fs := fun a ha =>
      (List.mem_filter.mp ((sortByAccess_perm _).mem_iff.mp (hDs.subset ha))).1
    have hD1nd : ((ttlDeleted delOk now cfg.ttlMs (getAllFiles fs)).map
        (fun f => f.path)).Nodup :=
      List.Nodup.sublist (List.Sublist.map _ (List.filter_sublist _)) hnd
    have hSnodup : ((ttlSurvivors now cfg.ttlMs (getAllFiles fs)).map
        (fun f => f.path)).Nodup :=
      List.Nodup.sublist (List.Sublist.map _ (List.filter_sublist _)) hnd
    have hD2nd : (D2.map (fun f => f.path)).Nodup :=
      List.Nodup.sublist (List.Sublist.map _ hDs)
        (((sortByAccess_perm _).map _).nodup_iff.mpr hSnodup)
    have hdisjoint : ∀ p ∈ (ttlDeleted delOk now cfg.ttlMs (getAllFiles fs)).map
        (fun f => f.path), p ∉ D2.map (fun f => f.path) := by
      intro p hp1 hp2
      rcases List.mem_map.mp hp1 with ⟨d1, hd1, hd1p⟩
      rcases List.mem_map.mp hp2 with ⟨d2, hd2, hd2p⟩
      have he : d1 = d2 :=
        path_inj hnd (hD1sub d1 hd1) (hD2sub d2 hd2) (by rw [hd1p, hd2p])
      rcases List.mem_filter.mp hd1 with ⟨_, hc1⟩
      have hS2 : d2 ∈ ttlSurvivors now cfg.ttlMs (getAllFiles fs) :=
        (sortByAccess_perm _).mem_iff.mp (hDs.subset hd2)
      rcases List.mem_filter.mp hS2 with ⟨_, hc2⟩
      rw [Bool.and_eq_true] at hc1
      rw [he] at hc1
      rw [hc1.1] at hc2
      simp at hc2
    refine ⟨?_, ?_, ?_⟩
    · rw [hres]
      simp
    · rw [hres]
      simp only []
      have hsplit := sumSizes_filter_or_disjoint (getAllFiles fs)
        (fun f => decide (f.path ∈
          (ttlDeleted delOk now cfg.ttlMs (getAllFiles fs)).map (fun f => f.path)))
        (fun f => decide (f.path ∈ D2.map (fun f => f.path)))
        (by
          intro f hf ⟨h1, h2⟩
          rw [decide_eq_true_eq] at h1 h2
          exact hdisjoint f.path h1 h2)
      rw [hsplit,
        sumSizes_filter_paths _ _ hD1sub hD1nd hnd,
        sumSizes_filter_paths _ _ hD2sub hD2nd hnd]
    · intro p hp
      rw [hres] at hp ⊢
      exact hdisjoint p hp

theorem runCleanup_report_consistent_witness :
    wfOpt (some (.dir true [("A", .file true 100 20 0), ("B", .file true 100 30 900),
      ("C", .file true 100 10 900)])) = true ∧
    ((runCleanup (fun _ => true) ⟨150, 500⟩ 1000
        (some (.dir true [("A", .file true 100 20 0), ("B", .file true 100 30 900),
          ("C", .file true 100 10 900)]))).1.filesDeleted =
      (runCleanup (fun _ => true) ⟨150, 500⟩ 1000
        (some (.dir true [("A", .file true 100 20 0), ("B", .file true 100 30 900),
          ("C", .file true 100 10 900)]))).1.expiredFiles.length +
      (runCleanup (fun _ => true) ⟨150, 500⟩ 1000
        (some (.dir true [("A", .file true 100 20 0), ("B", .file true 100 30 900),
          ("C", .file true 100 10 900)]))).1.lruFiles.length) :=
  ⟨by decide,
    (runCleanup_report_consistent (fun _ => true) ⟨150, 500⟩ 1000
      (some (.dir true [("A", .file true 100 20 0), ("B", .file true 100 30 900),
        ("C", .file true 100 10 900)])) (by decide)).1⟩

/-- **C6**: `runCleanup` is idempotent â a second invocation with the same
policy and clock, on the filesystem the first invocation left behind (with
deletion permissions unchanged), deletes nothing: its report has
`filesDeleted = 0`, `bytesFreed = 0` and empty `expiredFiles` / `lruFiles`. -/
theorem runCleanup_idempotent (delOk : FPath → Bool) (cfg : CleanupConfig) (now : Int)
    (fs : Option FSNode) (hwf : wfOpt fs = true) :
    (runCleanup delOk cfg now (runCleanup delOk cfg now fs).2).1.filesDeleted = 0 ∧
    (runCleanup delOk cfg now (runCleanup delOk cfg now fs).2).1.bytesFreed = 0 ∧
    (runCleanup delOk cfg now (runCleanup delOk cfg now fs).2).1.expiredFiles = [] ∧
    (runCleanup delOk cfg now (runCleanup delOk cfg now fs).2).1.lruFiles = [] := by
  by_cases hne : getAllFiles fs = []
  · simp [runCleanup_empty delOk cfg now fs hne, emptyResult]
  · have hnd := getAllFiles_paths_nodup fs hwf
    rcases runCleanup_spec delOk cfg now fs hwf hne with
      ⟨D2, E2, hDs, hDok, hEs, hEok, hres1, hwf1, hscan1, hdisj1, hskip1⟩
    by_cases hne1 : getAllFiles (runCleanup delOk cfg now fs).2 = []
    · simp [runCleanup_empty delOk cfg now _ hne1, emptyResult]
    · have hD2S : ∀ f ∈ D2, f ∈ ttlSurvivors now cfg.ttlMs (getAllFiles fs) :=
        fun f hf => (sortByAccess_perm _).mem_iff.mp (hDs.subset hf)
      have hSnodup : ((ttlSurvivors now cfg.ttlMs (getAllFiles fs)).map
          (fun f => f.path)).Nodup :=
        List.Nodup.sublist (List.Sublist.map _ (List.filter_sublist _)) hnd
      have hD2nodup : (D2.map (fun f => f.path)).Nodup :=
        List.Nodup.sublist (List.Sublist.map _ hDs)
          (((sortByAccess_perm _).map _).nodup_iff.mpr hSnodup)
      -- every file of the second scan is a first-scan file missing from both
      -- deletion lists
      have hBmem : ∀ g ∈ getAllFiles (runCleanup delOk cfg now fs).2,
          g ∈ getAllFiles fs ∧
          g.path ∉ (ttlDeleted delOk now cfg.ttlMs (getAllFiles fs)).map (fun f => f.path) ∧
          g.path ∉ D2.map (fun f => f.path) := by
        intro g hg
        rw [hscan1] at hg
        rcases List.mem_filter.mp hg with ⟨hga, hpred⟩
        simp only [Bool.not_eq_eq_eq_not, Bool.not_true, decide_eq_false_iff_not,
          List.mem_append, not_or] at hpred
        exact ⟨hga, hpred.1, hpred.2⟩
      -- the second TTL pass deletes nothing
      have hD1' : ttlDeleted delOk now cfg.ttlMs
          (getAllFiles (runCleanup delOk cfg now fs).2) = [] := by
        rw [ttlDeleted, List.filter_eq_nil_iff]
        intro a ha
        rcases hBmem a ha with ⟨haA, haD1, _⟩
        intro hcond
        rw [Bool.and_eq_true] at hcond
        exact haD1 (List.mem_map_of_mem _
          (List.mem_filter.mpr ⟨haA, by rw [hcond.1, hcond.2]; rfl⟩))
      -- the second run's survivors are the first run's survivors minus the
      -- LRU deletions
      have hS' : ttlSurvivors now cfg.ttlMs (getAllFiles (runCleanup delOk cfg now fs).2) =
          (ttlSurvivors now cfg.ttlMs (getAllFiles fs)).filter
            (fun g => !decide (g.path ∈ D2.map (fun f => f.path))) := by
        rw [ttlSurvivors, hscan1, List.filter_filter, ttlSurvivors, List.filter_filter]
        apply List.filter_congr
        intro g hg
        by_cases hx : expiredB now cfg.ttlMs g = true
        · simp [hx]
        · rw [Bool.not_eq_true] at hx
          have hgD1 : g.path ∉
              (ttlDeleted delOk now cfg.ttlMs (getAllFiles fs)).map (fun f => f.path) := by
            intro hc
            rcases List.mem_map.mp hc with ⟨d, hd, hdp⟩
            rcases List.mem_filter.mp hd with ⟨hdf, hdc⟩
            have he : d = g := path_inj hnd hdf hg hdp
            rw [Bool.and_eq_true] at hdc
            rw [he] at hdc
            rw [hdc.1] at hx
            exact Bool.noConfusion hx
          by_cases hgD2 : g.path ∈ D2.map (fun f => f.path) <;>
            simp [hx, hgD1, hgD2]
      have hsum' : sumSizes (ttlSurvivors now cfg.ttlMs
          (getAllFiles (runCleanup delOk cfg now fs).2)) =
          sumSizes (ttlSurvivors now cfg.ttlMs (getAllFiles fs)) - sumSizes D2 := by
        rw [hS']
        exact sumSizes_filter_not_paths D2 _ hD2S hD2nodup hSnodup
      rcases runCleanup_spec delOk cfg now (runCleanup delOk cfg now fs).2 hwf1 hne1 with
        ⟨D2', E2', hDs', hDok', hEs', hEok', hres2, _, _, _, hskip2⟩
      rcases hdisj1 with hle | hexh
      · have hz := hskip2 (by rw [hsum']; exact hle)
        rw [hres2, hD1', hz.1]
        simp [sumSizes]
      · -- the first LRU pass exhausted the candidates: everything that is left
        -- is a file whose deletion fails, so the second LRU pass deletes nothing
        have hBfail : ∀ g ∈ ttlSurvivors now cfg.ttlMs
            (getAllFiles (runCleanup delOk cfg now fs).2), delOk g.path = false := by
          intro g hg
          rw [hS'] at hg
          rcases List.mem_filter.mp hg with ⟨hgS, hgD2⟩
          rcases hexh g ((sortByAccess_perm _).mem_iff.mpr hgS) with h | h
          · exfalso
            simp only [Bool.not_eq_eq_eq_not, Bool.not_true, decide_eq_false_iff_not] at hgD2
            exact hgD2 (List.mem_map_of_mem _ h)
          · exact hEok g h
        have hD2'nil : D2' = [] := by
          rw [List.eq_nil_iff_forall_not_mem]
          intro g hg
          have h1 := hDok' g hg
          have h2 := hBfail g ((sortByAccess_perm _).mem_iff.mp (hDs'.subset hg))
          rw [h1] at h2
          exact Bool.noConfusion h2
        rw [hres2, hD1', hD2'nil]
        simp [sumSizes]

theorem runCleanup_idempotent_witness :
    wfOpt (some (.dir true [("old", .file true 100 0 0),
      ("B", .file true 100 30 900), ("C", .file true 100 10 900)])) = true ∧
    (runCleanup (fun p => !(p = ["old"] : Bool)) ⟨150, 500⟩ 1000
      (runCleanup (fun p => !(p = ["old"] : Bool)) ⟨150, 500⟩ 1000
        (some (.dir true [("old", .file true 100 0 0),
          ("B", .file true 100 30 900), ("C", .file true 100 10 900)]))).2).1.filesDeleted = 0 ∧
    (runCleanup (fun p => !(p = ["old"] : Bool)) ⟨150, 500⟩ 1000
      (runCleanup (fun p => !(p = ["old"] : Bool)) ⟨150, 500⟩ 1000
        (some (.dir true [("old", .file true 100 0 0),
          ("B", .file true 100 30 900), ("C", .file true 100 10 900)]))).2).1.bytesFreed = 0 ∧
    (runCleanup (fun p => !(p = ["old"] : Bool)) ⟨150, 500⟩ 1000
      (runCleanup (fun p => !(p = ["old"] : Bool)) ⟨150, 500⟩ 1000
        (some (.dir true [("old", .file true 100 0 0),
          ("B", .file true 100 30 900), ("C", .file true 100 10 900)]))).2).1.expiredFiles = [] ∧
    (runCleanup (fun p => !(p = ["old"] : Bool)) ⟨150, 500⟩ 1000
      (runCleanup (fun p => !(p = ["old"] : Bool)) ⟨150, 500⟩ 1000
        (some (.dir true [("old", .file true 100 0 0),
          ("B", .file true 100 30 900), ("C", .file true 100 10 900)]))).2).1.lruFiles = [] :=
  ⟨by decide,
    (runCleanup_idempotent (fun p => !(p = ["old"] : Bool)) ⟨150, 500⟩ 1000
      (some (.dir true [("old", .file true 100 0 0),
        ("B", .file true 100 30 900), ("C", .file true 100 10 900)])) (by decide)).1,
    (runCleanup_idempotent (fun p => !(p = ["old"] : Bool)) ⟨150, 500⟩ 1000
      (some (.dir true [("old", .file true 100 0 0),
        ("B", .file true 100 30 900), ("C", .file true 100 10 900)])) (by decide)).2.1,
    (runCleanup_idempotent (fun p => !(p = ["old"] : Bool)) ⟨150, 500⟩ 1000
      (some (.dir true [("old", .file true 100 0 0),
        ("B", .file true 100 30 900), ("C", .file true 100 10 900)])) (by decide)).2.2.1,
    (runCleanup_idempotent (fun p => !(p = ["old"] : Bool)) ⟨150, 500⟩ 1000
      (some (.dir true [("old", .file true 100 0 0),
        ("B", .file true 100 30 900), ("C", .file true 100 10 900)])) (by decide)).2.2.2⟩

/-- The fold computing `oldest` returns the first-seen element of minimal
`modTime`: it occurs in the list, is a lower bound, and every element before
its occurrence is strictly larger. -/
theorem foldl_oldest_spec (l : List CachedFile) :
    ∀ (a : CachedFile),
    ∃ pre post,
      a :: l = pre ++ (l.foldl (fun o f => if f.modTime < o.modTime then f else o) a) :: post ∧
      (∀ x ∈ a :: l,
        (l.foldl (fun o f => if f.modTime < o.modTime then f else o) a).modTime ≤ x.modTime) ∧
      (∀ x ∈ pre,
        (l.foldl (fun o f => if f.modTime < o.modTime then f else o) a).modTime < x.modTime) := by
  induction l with
  | nil =>
    intro a
    refine ⟨[], [], rfl, ?_, by simp⟩
    intro x hx
    rcases List.mem_singleton.mp hx with rfl
    exact le_refl _
  | cons f l ih =>
    intro a
    rw [List.foldl_cons]
    rcases ih (if f.modTime < a.modTime then f else a) with ⟨pre', post', hsplit, hmin, hpre⟩
    by_cases hlt : f.modTime < a.modTime
    · rw [if_pos hlt] at hsplit hmin hpre ⊢
      have hmf : (l.foldl (fun o f => if f.modTime < o.modTime then f else o) f).modTime ≤
          f.modTime := hmin f (by simp)
      refine ⟨a :: pre', post', ?_, ?_, ?_⟩
      · rw [List.cons_append, ← hsplit]
      · intro x hx
        rcases List.mem_cons.mp hx with rfl | hx
        · omega
        · exact hmin x hx
      · intro x hx
        rcases List.mem_cons.mp hx with rfl | hx
        · omega
        · exact hpre x hx
    · rw [if_neg hlt] at hsplit hmin hpre ⊢
      cases pre' with
      | nil =>
        simp only [List.nil_append] at hsplit
        have hma : l.foldl (fun o f => if f.modTime < o.modTime then f else o) a = a :=
          (List.cons.injEq _ _ _ _ ▸ hsplit).1.symm
        refine ⟨[], f :: l, ?_, ?_, by simp⟩
        · simp [hma]
        · intro x hx
          rcases List.mem_cons.mp hx with rfl | hx
          · rw [hma]
          · rcases List.mem_cons.mp hx with rfl | hx
            · rw [hma]; omega
            · exact hmin x (by simp [hx])
      | cons p0 pre'' =>
        simp only [List.cons_append] at hsplit
        have hp0 : p0 = a := ((List.cons.injEq _ _ _ _ ▸ hsplit).1).symm
        have hl : l = pre'' ++
            (l.foldl (fun o f => if f.modTime < o.modTime then f else o) a) :: post' :=
          (List.cons.injEq _ _ _ _ ▸ hsplit).2
        have hma : (l.foldl (fun o f => if f.modTime < o.modTime then f else o) a).modTime <
            a.modTime := by
          have := hpre p0 (by simp)
          rwa [hp0] at this
        refine ⟨a :: f :: pre'', post', ?_, ?_, ?_⟩
        · rw [List.cons_append, List.cons_append, ← hl]
        · intro x hx
          rcases List.mem_cons.mp hx with rfl | hx
          · omega
          · rcases List.mem_cons.mp hx with rfl | hx
            · omega
            · exact hmin x (by simp [hx])
        · intro x hx
          rcases List.mem_cons.mp hx with rfl | hx
          · omega
          · rcases List.mem_cons.mp hx with rfl | hx
            · omega
            · exact hpre x (by simp [hx])

/-- The fold computing `newest` returns the first-seen element of maximal
`modTime`. -/
theorem foldl_newest_spec (l : List CachedFile) :
    ∀ (a : CachedFile),
    ∃ pre post,
      a :: l = pre ++ (l.foldl (fun o f => if f.modTime > o.modTime then f else o) a) :: post ∧
      (∀ x ∈ a :: l,
        x.modTime ≤ (l.foldl (fun o f => if f.modTime > o.modTime then f else o) a).modTime) ∧
      (∀ x ∈ pre,
        x.modTime < (l.foldl (fun o f => if f.modTime > o.modTime then f else o) a).modTime) := by
  induction l with
  | nil =>
    intro a
    refine ⟨[], [], rfl, ?_, by simp⟩
    intro x hx
    rcases List.mem_singleton.mp hx with rfl
    exact le_refl _
  | cons f l ih =>
    intro a
    rw [List.foldl_cons]
    rcases ih (if f.modTime > a.modTime then f else a) with ⟨pre', post', hsplit, hmax, hpre⟩
    by_cases hlt : f.modTime > a.modTime
    · rw [if_pos hlt] at hsplit hmax hpre ⊢
      have hmf : f.modTime ≤
          (l.foldl (fun o f => if f.modTime > o.modTime then f else o) f).modTime :=
        hmax f (by simp)
      refine ⟨a :: pre', post', ?_, ?_, ?_⟩
      · rw [List.cons_append, ← hsplit]
      · intro x hx
        rcases List.mem_cons.mp hx with rfl | hx
        · omega
        · exact hmax x hx
      · intro x hx
        rcases List.mem_cons.mp hx with rfl | hx
        · omega
        · exact hpre x hx
    · rw [if_neg hlt] at hsplit hmax hpre ⊢
      cases pre' with
      | nil =>
        simp only [List.nil_append] at hsplit
        have hma : l.foldl (fun o f => if f.modTime > o.modTime then f else o) a = a :=
          (List.cons.injEq _ _ _ _ ▸ hsplit).1.symm
        refine ⟨[], f :: l, ?_, ?_, by simp⟩
        · simp [hma]
        · intro x hx
          rcases List.mem_cons.mp hx with rfl | hx
          · rw [hma]
          · rcases List.mem_cons.mp hx with rfl | hx
            · rw [hma]; omega
            · exact hmax x (by simp [hx])
      | cons p0 pre'' =>
        simp only [List.cons_append] at hsplit
        have hp0 : p0 = a := ((List.cons.injEq _ _ _ _ ▸ hsplit).1).symm
        have hl : l = pre'' ++
            (l.foldl (fun o f => if f.modTime > o.modTime then f else o) a) :: post' :=
          (List.cons.injEq _ _ _ _ ▸ hsplit).2
        have hma : a.modTime <
            (l.foldl (fun o f => if f.modTime > o.modTime then f else o) a).modTime := by
          have := hpre p0 (by simp)
          rwa [hp0] at this
        refine ⟨a :: f :: pre'', post', ?_, ?_, ?_⟩
        · rw [List.cons_append, List.cons_append, ← hl]
        · intro x hx
          rcases List.mem_cons.mp hx with rfl | hx
          · omega
          · rcases List.mem_cons.mp hx with rfl | hx
            · omega
            · exact hmax x (by simp [hx])
        · intro x hx
          rcases List.mem_cons.mp hx with rfl | hx
          · omega
          · rcases List.mem_cons.mp hx with rfl | hx
            · omega
            · exact hpre x (by simp [hx])

/-- **C9**: on a non-empty inventory `getCacheStats` reports as `oldestFile`
the first-seen file of minimal `modTime` and as `newestFile` the first-seen
file of maximal `modTime` (ties keep the earlier element of the scan order),
each annotated with `age = now - modTime`. -/
theorem getCacheStats_extremes (fs : Option FSNode) (now : Int)
    (hne : getAllFiles fs ≠ []) :
    ∃ m M : CachedFile, ∃ pre post pre2 post2 : List CachedFile,
      getAllFiles fs = pre ++ m :: post ∧
      getAllFiles fs = pre2 ++ M :: post2 ∧
      (∀ x ∈ getAllFiles fs, m.modTime ≤ x.modTime) ∧
      (∀ x ∈ pre, m.modTime < x.modTime) ∧
      (∀ x ∈ getAllFiles fs, x.modTime ≤ M.modTime) ∧
      (∀ x ∈ pre2, x.modTime < M.modTime) ∧
      (getCacheStats fs now).oldestFile =
        some { path := m.path, age := now - m.modTime } ∧
      (getCacheStats fs now).newestFile =
        some { path := M.path, age := now - M.modTime } := by
  rcases List.exists_cons_of_ne_nil hne with ⟨f0, rest, heq⟩
  rcases foldl_oldest_spec rest f0 with ⟨pre, post, hsplit, hmin, hpre⟩
  rcases foldl_newest_spec rest f0 with ⟨pre2, post2, hsplit2, hmax, hpre2⟩
  refine ⟨rest.foldl (fun o f => if f.modTime < o.modTime then f else o) f0,
    rest.foldl (fun o f => if f.modTime > o.modTime then f else o) f0,
    pre, post, pre2, post2, by rw [heq, hsplit], by rw [heq, hsplit2],
    ?_, hpre, ?_, hpre2, ?_, ?_⟩
  · intro x hx
    exact hmin x (by rwa [← heq])
  · intro x hx
    exact hmax x (by rwa [← heq])
  · simp only [getCacheStats, heq, List.foldl_cons, ite_self]
  · simp only [getCacheStats, heq, List.foldl_cons, ite_self]

theorem getCacheStats_extremes_witness :
    getAllFiles (some (.dir true [("A", .file true 10 0 7), ("B", .file true 20 0 3),
      ("C", .file true 30 0 9)])) ≠ [] ∧
    ∃ m M : CachedFile, ∃ pre post pre2 post2 : List CachedFile,
      getAllFiles (some (.dir true [("A", .file true 10 0 7), ("B", .file true 20 0 3),
        ("C", .file true 30 0 9)])) = pre ++ m :: post ∧
      getAllFiles (some (.dir true [("A", .file true 10 0 7), ("B", .file true 20 0 3),
        ("C", .file true 30 0 9)])) = pre2 ++ M :: post2 ∧
      (∀ x ∈ getAllFiles (some (.dir true [("A", .file true 10 0 7),
        ("B", .file true 20 0 3), ("C", .file true 30 0 9)])), m.modTime ≤ x.modTime) ∧
      (∀ x ∈ pre, m.modTime < x.modTime) ∧
      (∀ x ∈ getAllFiles (some (.dir true [("A", .file true 10 0 7),
        ("B", .file true 20 0 3), ("C", .file true 30 0 9)])), x.modTime ≤ M.modTime) ∧
      (∀ x ∈ pre2, x.modTime < M.modTime) ∧
      (getCacheStats (some (.dir true [("A", .file true 10 0 7), ("B", .file true 20 0 3),
        ("C", .file true 30 0 9)])) 100).oldestFile =
        some { path := m.path, age := 100 - m.modTime } ∧
      (getCacheStats (some (.dir true [("A", .file true 10 0 7), ("B", .file true 20 0 3),
        ("C", .file true 30 0 9)])) 100).newestFile =
        some { path := M.path, age := 100 - M.modTime } :=
  ⟨by decide,
    getCacheStats_extremes (some (.dir true [("A", .file true 10 0 7),
      ("B", .file true 20 0 3), ("C", .file true 30 0 9)])) 100 (by decide)⟩

end CottMV
